import Mathlib

/-!
# Chunked upload server: transfer state machine over a file store

A shallow embedding of `main.go` (`handlePost`, `handlePatch`, `handleHead`)
over an explicit model of the file store the handlers work on.

Modelling conventions
* A Go `string` is a Lean `String`; a header that is absent reads as `""`
  (the behaviour of `http.Header.Get`).
* A Go path value is held as the component list of its cleaned form
  (`"."` is the empty list); `Join` is `filepath.Join` on that form.
* The store is a map from absolute paths to entries together with the
  working directory of the process. There are no symbolic links, and the
  store itself never fails (no permission error, no full disk): an
  operation fails only for a structural reason (`ENOENT`, `ENOTDIR`,
  `EISDIR`, `EEXIST`, `EINVAL`) or for a name the system refuses: a
  component longer than 255 bytes or a path string of 4096 bytes or more
  (`ENAMETOOLONG`), a zero byte in the path (`EINVAL`).
* The size of a file and the offset of a seek are bounded by `int64` only;
  a smaller limit of the file system is not modelled (see `Seek`).
* `int64` values are integers, wrapped explicitly where the code adds.
* The `Upload-Offset` response header is kept as the integer whose decimal
  rendering (`strconv.FormatInt`) the code sends.
* One request runs to completion before the next starts.
-/

namespace ChunkUpload

/-! ## Paths -/

/-- An absolute path: the components below the root. -/
abbrev Path := List String

/-- A cleaned relative path: leading `..` components, then ordinary ones. -/
abbrev RelPath := List String

/-- Split a string at every `/`. -/
def splitSep : List Char → List (List Char)
  | [] => [[]]
  | c :: cs =>
    if c = '/' then [] :: splitSep cs
    else match splitSep cs with
      | [] => [[c]]
      | x :: xs => (c :: x) :: xs

/-- The components of a path string. -/
def components (s : String) : List String :=
  (splitSep s.data).map String.mk

/-- One step of `filepath.Clean` on a relative path; the stack holds the
components kept so far, last one first. -/
def cleanStep (st : List String) (c : String) : List String :=
  if c = "" ∨ c = "." then st
  else if c = ".." then
    match st with
    | [] => [".."]
    | t :: r => if t = ".." then ".." :: t :: r else r
  else c :: st

/-- The lexical cleaning of `filepath.Clean` for a relative path given by its
components: empty and `.` components go, `..` removes the ordinary
component before it, and a `..` with nothing to remove stays. -/
def Clean (cs : List String) : RelPath :=
  (cs.foldl cleanStep []).reverse

/-- The model of `filepath.Join(base, elem)` for a relative `base`: the
cleaned form of `base + "/" + elem`. -/
def Join (base : RelPath) (elem : String) : RelPath :=
  Clean (base ++ components elem)

/-- The constant `uploadDir = "./tmp"`. -/
def uploadDir : RelPath := Clean (components "./tmp")

/-! ## The file store -/

/-- What a path of the store holds. -/
inductive Entry where
  | file (data : List UInt8)
  | dir
  deriving DecidableEq, Repr

/-- The structural errors of the store. -/
inductive Errno where
  | ENOENT
  | ENOTDIR
  | EISDIR
  | EINVAL
  | ENAMETOOLONG
  | EEXIST
  deriving DecidableEq, Repr

/-- The longest file name, in bytes (`NAME_MAX`). -/
def nameMax : Nat := 255

/-- The size of the buffer a path has to fit in with its terminating zero
byte (`PATH_MAX`). -/
def pathMax : Nat := 4096

/-- A path component longer than `NAME_MAX` bytes. -/
def nameTooLong (c : String) : Bool :=
  decide (nameMax < c.utf8ByteSize)

/-- A path component that holds a zero byte. -/
def hasNul (c : String) : Bool :=
  c.data.contains (Char.ofNat 0)

/-- The length in bytes of the path string of a cleaned relative path: the
components with a separator between them, `.` for the empty list. -/
def pathLength : RelPath → Nat
  | [] => 1
  | c :: cs => c.utf8ByteSize + (cs.map (fun x => x.utf8ByteSize + 1)).sum

/-- What is checked on a path string before any look-up: a zero byte in it
is `EINVAL` (no system call is made), and a path that does not fit in
`PATH_MAX` bytes is `ENAMETOOLONG`. -/
def pathCheck (rel : RelPath) : Option Errno :=
  if rel.any hasNul then some .EINVAL
  else if pathMax ≤ pathLength rel then some .ENAMETOOLONG
  else none

deriving instance DecidableEq for Except

/-- The file store: the working directory of the process and the entry at
each absolute path. -/
structure FS where
  cwd : Path
  ent : Path → Option Entry

namespace FS

/-- The store with the entry at `p` replaced. -/
def set (fs : FS) (p : Path) (e : Option Entry) : FS :=
  { fs with ent := fun q => if q = p then e else fs.ent q }

/-- The absolute path a relative path names: `..` leaves a directory, the
root being its own parent. -/
def abs (fs : FS) (rel : RelPath) : Path :=
  rel.foldl (fun acc c => if c = ".." then acc.dropLast else acc ++ [c]) fs.cwd

/-- Path resolution from the directory `pre` along `cs`: every directory
on the way has to exist and be a directory, and a name longer than
`NAME_MAX` cannot be looked up in a directory (`ENAMETOOLONG`). -/
def walkFrom (ent : Path → Option Entry) : Path → List String → Except Errno Entry
  | pre, [] =>
    match ent pre with
    | some e => .ok e
    | none => .error .ENOENT
  | pre, c :: cs =>
    match ent pre with
    | some .dir => if nameTooLong c then .error .ENAMETOOLONG else walkFrom ent (pre ++ [c]) cs
    | some (.file _) => .error .ENOTDIR
    | none => .error .ENOENT

/-- The entry an absolute path resolves to. -/
def lookup (fs : FS) (p : Path) : Except Errno Entry :=
  walkFrom fs.ent [] p

end FS

/-- The model of `os.Stat`. -/
def osStat (fs : FS) (rel : RelPath) : Except Errno Entry :=
  match pathCheck rel with
  | some e => .error e
  | none => fs.lookup (fs.abs rel)

/-- The model of `os.IsNotExist`. -/
def isNotExist : Except Errno Entry → Bool
  | .error .ENOENT => true
  | _ => false

/-- The model of `FileInfo.Size`: the length of a regular file. The size of
a directory depends on the system; it is taken as `0` and no statement
below depends on it. -/
def Entry.size : Entry → Int
  | .file d => d.length
  | .dir => 0

/-- Creation of every missing directory from `pre` down along `cs`, the way
`os.MkdirAll` does it: the directories are made from the top, a regular
file on the way is `ENOTDIR`, a name longer than `NAME_MAX` is
`ENAMETOOLONG`. The result is the entries after the call and its error;
what was made before an error stays. -/
def mkdirAllFrom (ent : Path → Option Entry) :
    Path → List String → (Path → Option Entry) × Option Errno
  | pre, [] =>
    match ent pre with
    | some .dir => (ent, none)
    | some (.file _) => (ent, some .ENOTDIR)
    | none => (fun q => if q = pre then some .dir else ent q, none)
  | pre, c :: cs =>
    match ent pre with
    | some .dir =>
      if nameTooLong c then (ent, some .ENAMETOOLONG) else mkdirAllFrom ent (pre ++ [c]) cs
    | some (.file _) => (ent, some .ENOTDIR)
    | none =>
      if nameTooLong c then (fun q => if q = pre then some .dir else ent q, some .ENAMETOOLONG)
      else mkdirAllFrom (fun q => if q = pre then some .dir else ent q) (pre ++ [c]) cs

/-- The model of `os.MkdirAll`: the store after the call and its error. A
path that fails `pathCheck` is refused as a whole (the caller in this
program passes the upload directory and one identifier of 32 hexadecimal
digits, which passes). -/
def MkdirAll (fs : FS) (rel : RelPath) : FS × Option Errno :=
  match pathCheck rel with
  | some e => (fs, some e)
  | none =>
    ({ fs with ent := (mkdirAllFrom fs.ent [] (fs.abs rel)).1 },
      (mkdirAllFrom fs.ent [] (fs.abs rel)).2)

/-- The model of `os.OpenFile(name, O_CREATE|O_WRONLY, 0644)`, with `O_TRUNC`
too when `trunc` is set: the regular file is opened as it is (emptied under
`O_TRUNC`), a missing file is created empty in an existing directory. The
open file is returned as the absolute path it lives at. -/
def OpenFile (fs : FS) (rel : RelPath) (trunc : Bool) : Except Errno (FS × Path) :=
  match pathCheck rel with
  | some e => .error e
  | none =>
    let p := fs.abs rel
    match fs.lookup p with
    | .ok (.file _) => .ok (if trunc then fs.set p (some (.file [])) else fs, p)
    | .ok .dir => .error .EISDIR
    | .error .ENOENT =>
      match fs.lookup p.dropLast with
      | .ok .dir => .ok (fs.set p (some (.file [])), p)
      | .ok (.file _) => .error .ENOTDIR
      | .error e => .error e
    | .error e => .error e

/-- The model of `file.Seek(offset, 0)`: the new position, `EINVAL` for a
negative one. The largest offset of the file system is taken to be the
largest `int64`, as on a file system without a smaller limit on the size
of a file. On a file system with a smaller limit (16 TiB on ext4 with
4 KiB blocks) a seek beyond it fails too and the call answers 500; that is
not modelled. The statements below therefore seek to a position inside the
blob, to the sum of the bytes sent so far, or to an offset of at most
`seekAlways`. -/
def Seek (offset : Int) : Except Errno Nat :=
  if offset < 0 then .error .EINVAL else .ok offset.toNat

/-- An offset every file system can seek to: `2^31 - 1`, the limit on the
size of a file (`MAX_NON_LFS`) that a file system has unless it sets a
larger one. -/
def seekAlways : Nat := 2 ^ 31 - 1

/-- The content of a file after `b` is written at position `pos`: the bytes
before `pos` stay, a gap between the old end and `pos` reads as zeros, and
the bytes after the written range stay. -/
def writeAt (d : List UInt8) (pos : Nat) (b : List UInt8) : List UInt8 :=
  d.take pos ++ List.replicate (pos - d.length) 0 ++ b ++ d.drop (pos + b.length)

/-- The content of the open file `file`. -/
def contentOf (fs : FS) (file : Path) : List UInt8 :=
  match fs.ent file with
  | some (.file d) => d
  | _ => []

/-- The model of `io.Copy(file, body)` with the file positioned at `pos`:
the bytes the body delivers are written from `pos` on, and nothing is
written (the file keeps its size) when the body delivers none. The result
is the store and the number of bytes written. -/
def Copy (fs : FS) (file : Path) (pos : Nat) (body : List UInt8) : FS × Int :=
  (if body = [] then fs else fs.set file (some (.file (writeAt (contentOf fs file) pos body))),
   body.length)

/-- The model of `os.Rename(oldpath, newpath)` for a regular file at
`oldpath`: both paths are checked, then the file replaces a regular file at
`newpath` or is entered under a new name in an existing directory; it
fails on a directory at `newpath` (`EEXIST`), on a name there that is too
long (`ENAMETOOLONG`) and on a missing parent directory, and does nothing
when both paths name the same file. A directory at `oldpath` does not
arise (the caller has the path open as a regular file); it is reported as
`EINVAL`. -/
def Rename (fs : FS) (oldrel newrel : RelPath) : Except Errno FS :=
  match pathCheck oldrel with
  | some e => .error e
  | none =>
    match pathCheck newrel with
    | some e => .error e
    | none =>
      let src := fs.abs oldrel
      let dst := fs.abs newrel
      match fs.lookup src with
      | .error e => .error e
      | .ok .dir => .error .EINVAL
      | .ok (.file d) =>
        match fs.lookup dst with
        | .ok .dir => .error .EEXIST
        | .ok (.file _) =>
          if src = dst then .ok fs else .ok ((fs.set src none).set dst (some (.file d)))
        | .error .ENOENT =>
          match fs.lookup dst.dropLast with
          | .ok .dir => .ok ((fs.set src none).set dst (some (.file d)))
          | .ok (.file _) => .error .ENOTDIR
          | .error e => .error e
        | .error e => .error e

/-- The bytes of a string. -/
def bytesOf (s : String) : List UInt8 :=
  s.data.flatMap String.utf8EncodeChar

/-- The model of `os.WriteFile(name, data, 0644)`; the caller ignores its
error, so a failure leaves the store as it was. -/
def WriteFile (fs : FS) (rel : RelPath) (data : List UInt8) : FS :=
  match OpenFile fs rel true with
  | .ok (fs1, file) => fs1.set file (some (.file data))
  | .error _ => fs

/-! ## Numbers and identifiers -/

/-- The value of a decimal digit. -/
def digitVal (c : Char) : Option Nat :=
  if 48 ≤ c.toNat ∧ c.toNat ≤ 57 then some (c.toNat - 48) else none

/-- The value of a run of decimal digits, `none` at any other character. -/
def parseDigits : List Char → Nat → Option Nat
  | [], acc => some acc
  | c :: cs, acc =>
    match digitVal c with
    | some v => parseDigits cs (acc * 10 + v)
    | none => none

/-- The range check of `strconv.ParseInt` for 64 bits: the magnitude `un`
with its sign has to be an `int64`. -/
def toInt64 (neg : Bool) (un : Nat) : Option Int :=
  if neg then (if un > 2 ^ 63 then none else some (-(un : Int)))
  else (if un ≥ 2 ^ 63 then none else some (un : Int))

/-- The unsigned part of `strconv.ParseInt`: one or more decimal digits,
then the range check. -/
def parseSigned (neg : Bool) (ds : List Char) : Option Int :=
  if ds = [] then none else (parseDigits ds 0).bind (toInt64 neg)

/-- The model of `strconv.ParseInt(s, 10, 64)`: an optional sign, then one
or more decimal digits, the value within `int64`; `none` is the error. -/
def ParseInt (s : String) : Option Int :=
  match s.data with
  | [] => none
  | c :: cs =>
    if c = '+' then parseSigned false cs
    else if c = '-' then parseSigned true cs
    else parseSigned false (c :: cs)

/-- The `int64` value of an integer (two's complement wrap-around). -/
def wrapInt64 (n : Int) : Int :=
  (n + 2 ^ 63) % 2 ^ 64 - 2 ^ 63

/-- The sixteen bytes `rand.Read` fills in. -/
abbrev RandBytes := { b : List UInt8 // b.length = 16 }

/-- A lower-case hexadecimal digit. -/
def hexDigit (n : Nat) : Char :=
  "0123456789abcdef".data.getD n '0'

/-- The two hexadecimal digits of a byte. -/
def hexByte (b : UInt8) : List Char :=
  [hexDigit (b.toNat / 16), hexDigit (b.toNat % 16)]

/-- The model of `generateID`: the hexadecimal form of the random bytes. -/
def generateID (b : RandBytes) : String :=
  String.mk (b.val.flatMap hexByte)

/-! ## Requests, responses and the three handlers -/

/-- A response: the status code, the `Upload-Offset` header when set, and
the body text. -/
structure Response where
  status : Nat
  uploadOffset : Option Int
  body : String
  deriving DecidableEq, Repr

/-- The model of `http.Error`. -/
def httpError (msg : String) (code : Nat) : Response :=
  { status := code, uploadOffset := none, body := msg ++ "\n" }

/-- The request headers `handlePost` reads. -/
structure PostReq where
  uploadLength : String
  uploadMetadata : String
  deriving DecidableEq

/-- The request headers and body `handlePatch` reads; `bodyFails` says that
reading the body ends in an error after `body` was delivered. -/
structure PatchReq where
  uploadOffset : String
  uploadLength : String
  uploadName : String
  body : List UInt8
  bodyFails : Bool
  deriving DecidableEq

/-- The outcome of `handlePatch`: the store, the response, and whether the
rename to the final name succeeded (the "complete: saved as" log line). -/
structure PatchResult where
  fs : FS
  resp : Response
  saved : Bool

/-- The model of `handlePost`, `rnd` being the bytes `generateID` draws. -/
def handlePost (fs : FS) (rnd : RandBytes) (req : PostReq) : FS × Response :=
  let uploadLength := req.uploadLength
  if uploadLength = "" then
    (fs, httpError "Upload-Length header required" 400)
  else
    let transferID := generateID rnd
    let transferDir := Join uploadDir transferID
    match MkdirAll fs transferDir with
    | (fs1, some _) => (fs1, httpError "Failed to create transfer location" 500)
    | (fs1, none) =>
      let metadataFile := Join transferDir "metadata.txt"
      let metadata := "Upload-Length: " ++ uploadLength ++ "\nUpload-Metadata: "
        ++ req.uploadMetadata ++ "\n"
      let fs2 := WriteFile fs1 metadataFile (bytesOf metadata)
      (fs2, { status := 200, uploadOffset := none, body := transferID })

/-- The model of `handlePatch`. -/
def handlePatch (fs : FS) (req : PatchReq) (transferID : String) : PatchResult :=
  let transferDir := Join uploadDir transferID
  if isNotExist (osStat fs transferDir) then
    ⟨fs, httpError "Transfer not found" 404, false⟩
  else
    let offsetStr := req.uploadOffset
    let lengthStr := req.uploadLength
    let fileName := req.uploadName
    if offsetStr = "" ∨ lengthStr = "" then
      ⟨fs, httpError "Upload-Offset and Upload-Length headers required" 400, false⟩
    else
      match ParseInt offsetStr with
      | none => ⟨fs, httpError "Invalid Upload-Offset" 400, false⟩
      | some offset =>
        match ParseInt lengthStr with
        | none => ⟨fs, httpError "Invalid Upload-Length" 400, false⟩
        | some totalLength =>
          let chunkFile := Join transferDir "data"
          match OpenFile fs chunkFile false with
          | .error _ => ⟨fs, httpError "Failed to save chunk" 500, false⟩
          | .ok (fs1, file) =>
            match Seek offset with
            | .error _ => ⟨fs1, httpError "Failed to write chunk" 500, false⟩
            | .ok pos =>
              let (fs2, written) := Copy fs1 file pos req.body
              if req.bodyFails then
                ⟨fs2, httpError "Failed to write chunk" 500, false⟩
              else
                let newOffset := wrapInt64 (offset + written)
                if newOffset ≥ totalLength then
                  let finalName := if fileName = "" then "uploaded_file" else fileName
                  let finalPath := Join uploadDir finalName
                  match Rename fs2 chunkFile finalPath with
                  | .error _ =>
                    ⟨fs2, { status := 204, uploadOffset := some newOffset, body := "" }, false⟩
                  | .ok fs3 =>
                    ⟨fs3, { status := 204, uploadOffset := some newOffset, body := "" }, true⟩
                else
                  ⟨fs2, { status := 204, uploadOffset := some newOffset, body := "" }, false⟩

/-- The model of `handleHead`. -/
def handleHead (fs : FS) (transferID : String) : Response :=
  let transferDir := Join uploadDir transferID
  let chunkFile := Join transferDir "data"
  if isNotExist (osStat fs transferDir) then
    httpError "Transfer not found" 404
  else
    let currentOffset : Int :=
      match osStat fs chunkFile with
      | .ok info => info.size
      | .error _ => 0
    { status := 200, uploadOffset := some currentOffset, body := "" }

/-! ## Vocabulary for the statements -/

/-- The directory of a transfer, as `handlePatch` and `handleHead` compute it. -/
def transferDir (transferID : String) : RelPath :=
  Join uploadDir transferID

/-- The data blob of a transfer. -/
def chunkFile (transferID : String) : RelPath :=
  Join (transferDir transferID) "data"

/-- The metadata record of a transfer. -/
def metadataFile (transferID : String) : RelPath :=
  Join (transferDir transferID) "metadata.txt"

/-- The name the blob is promoted to: the `Upload-Name`, or the default. -/
def finalName (fileName : String) : String :=
  if fileName = "" then "uploaded_file" else fileName

/-- The path `handlePatch` promotes the blob to for a given `Upload-Name`. -/
def finalPath (fileName : String) : RelPath :=
  Join uploadDir (finalName fileName)

/-- A name that is a single ordinary path component: not empty, without a
separator, and neither `.` nor `..`. Every identifier `generateID` makes is
one. -/
def PlainName (s : String) : Prop :=
  s ≠ "" ∧ s ≠ "." ∧ s ≠ ".." ∧ '/' ∉ s.data

instance (s : String) : Decidable (PlainName s) := by
  unfold PlainName; infer_instance

/-- The transfer `transferID` exists and has received exactly the bytes `d`:
its directory is there, and its blob holds `d` (no blob yet when `d` is
empty and nothing was written). -/
def HasBlob (fs : FS) (transferID : String) (d : List UInt8) : Prop :=
  osStat fs (transferDir transferID) = .ok .dir ∧
  (osStat fs (chunkFile transferID) = .ok (.file d) ∨
    (d = [] ∧ osStat fs (chunkFile transferID) = .error .ENOENT))

instance (fs : FS) (transferID : String) (d : List UInt8) :
    Decidable (HasBlob fs transferID d) := by
  unfold HasBlob; infer_instance

/-- The store after a run of `handlePatch` calls on one transfer. -/
def patchAll (fs : FS) (transferID : String) : List PatchReq → FS
  | [] => fs
  | r :: rs => patchAll (handlePatch fs r transferID).fs transferID rs

/-- The absolute path of the directory of a transfer with a plain identifier. -/
def tdAbs (fs : FS) (transferID : String) : Path :=
  fs.cwd ++ ["tmp", transferID]

/-- The absolute path of the blob of a transfer with a plain identifier. -/
def chAbs (fs : FS) (transferID : String) : Path :=
  fs.cwd ++ ["tmp", transferID, "data"]

/-- The blob after a chunk `b` arrives at position `pos`: untouched when the
chunk is empty. -/
def written (d : List UInt8) (pos : Nat) (b : List UInt8) : List UInt8 :=
  if b = [] then d else writeAt d pos b

/-- What `handlePatch` does once the chunk is in the blob: the completion
check and the rename. -/
def finishPatch (fsW : FS) (req : PatchReq) (transferID : String) (o t : Int) : PatchResult :=
  if req.bodyFails then
    ⟨fsW, httpError "Failed to write chunk" 500, false⟩
  else if wrapInt64 (o + req.body.length) ≥ t then
    match Rename fsW (chunkFile transferID) (finalPath req.uploadName) with
    | .error _ =>
      ⟨fsW, { status := 204, uploadOffset := some (wrapInt64 (o + req.body.length)),
              body := "" }, false⟩
    | .ok fs3 =>
      ⟨fs3, { status := 204, uploadOffset := some (wrapInt64 (o + req.body.length)),
              body := "" }, true⟩
  else
    ⟨fsW, { status := 204, uploadOffset := some (wrapInt64 (o + req.body.length)),
            body := "" }, false⟩

/-- The received length `handleHead` reports (`0` when it reports none). -/
def received (fs : FS) (transferID : String) : Int :=
  (handleHead fs transferID).uploadOffset.getD 0

/-- No call of the run renames the blob to the final name. -/
def NoPromotion (fs : FS) (transferID : String) : List PatchReq → Prop
  | [] => True
  | r :: rs =>
    (handlePatch fs r transferID).saved = false ∧
      NoPromotion (handlePatch fs r transferID).fs transferID rs

/-- The path `p` lies strictly inside the directory `dir`. -/
def Inside (fs : FS) (p dir : RelPath) : Prop :=
  ∃ c rest, fs.abs p = fs.abs dir ++ c :: rest

/-- Every entry of the store lies in a directory. -/
def FS.WellFormed (fs : FS) : Prop :=
  ∀ p c, fs.ent (p ++ [c]) ≠ none → fs.ent p = some .dir

/-- The number of body bytes a run of calls sends. -/
def sent (reqs : List PatchReq) : Nat :=
  (reqs.map (fun r => r.body.length)).sum

/-- The bytes a run of calls sends, in the order of the calls. -/
def payload (reqs : List PatchReq) : List UInt8 :=
  reqs.flatMap (fun r => r.body)

/-- Each call carries as `Upload-Offset` the offset the call before it
returned, the first one carrying `prev`. -/
def Chained (fs : FS) (transferID : String) : Option Int → List PatchReq → Prop
  | _, [] => True
  | prev, r :: rs =>
    ParseInt r.uploadOffset = prev ∧
      Chained (handlePatch fs r transferID).fs transferID
        (handlePatch fs r transferID).resp.uploadOffset rs

/-- Every call of the run answers 204 with its offset plus the number of
its body bytes. -/
def AnswersOffsetPlusBytes (fs : FS) (transferID : String) : List PatchReq → Prop
  | [] => True
  | r :: rs =>
    (∃ o, ParseInt r.uploadOffset = some o ∧
      (handlePatch fs r transferID).resp =
        { status := 204, uploadOffset := some (o + r.body.length), body := "" }) ∧
      AnswersOffsetPlusBytes (handlePatch fs r transferID).fs transferID rs

/-! ## A concrete run -/

/-- A store right after start: the root and the upload directory, the root
being the working directory. -/
def store0 : FS :=
  { cwd := [], ent := fun p => if p = [] ∨ p = ["tmp"] then some .dir else none }

/-- Sixteen random bytes. -/
def rnd0 : RandBytes := ⟨[0, 1, 2, 3, 4, 5, 6, 7, 8, 9, 10, 11, 12, 13, 14, 15], rfl⟩

/-- Sixteen other random bytes. -/
def rnd1 : RandBytes :=
  ⟨[16, 17, 18, 19, 20, 21, 22, 23, 24, 25, 26, 27, 28, 29, 30, 31], rfl⟩

/-- The identifier made from `rnd0`, `000102030405060708090a0b0c0d0e0f`. -/
def idA : String := generateID rnd0

/-- The identifier made from `rnd1`, `101112131415161718191a1b1c1d1e1f`. -/
def idB : String := generateID rnd1

/-- The bytes of `HELLO`. -/
def hello : List UInt8 := [72, 69, 76, 76, 79]

/-- The bytes of `WORLD`. -/
def world : List UInt8 := [87, 79, 82, 76, 68]

/-- The first chunk of the ten-byte upload. -/
def reqHello : PatchReq := ⟨"0", "10", "", hello, false⟩

/-- The second and last chunk of the ten-byte upload. -/
def reqWorld : PatchReq := ⟨"5", "10", "", world, false⟩

/-- The store after a transfer of declared length 10 was created. -/
def created : FS := (handlePost store0 rnd0 ⟨"10", ""⟩).1

/-- The store after the first chunk. -/
def afterHello : FS := (handlePatch created reqHello idA).fs

/-- The store after the second chunk, which completes the transfer. -/
def afterWorld : FS := (handlePatch afterHello reqWorld idA).fs

/-- The store with a second transfer that has received `HELLO`. -/
def twoTransfers : FS :=
  (handlePatch (handlePost created rnd1 ⟨"10", ""⟩).1 reqHello idB).fs


/-- The last chunk with one byte too many. -/
def reqTooLong : PatchReq := ⟨"0", "10", "", hello ++ world ++ [33], false⟩

/-- A complete upload of the first transfer that names the blob of the
second transfer as its final name. -/
def reqIntoOther : PatchReq := ⟨"0", "10", idB ++ "/data", world ++ world, false⟩

/-- A name of 256 bytes, one more than a directory entry can hold. -/
def longName : String := String.mk (List.replicate 256 'a')

/-! ## Paths: lemmas -/

theorem splitSep_of_not_mem (cs : List Char) (h : '/' ∉ cs) : splitSep cs = [cs] := by
  induction cs with
  | nil => rfl
  | cons c cs ih =>
    have hc : c ≠ '/' := fun e => h (by simp [e])
    have hcs : '/' ∉ cs := fun e => h (by simp [e])
    simp [splitSep, hc, ih hcs]

theorem components_plain {s : String} (h : PlainName s) : components s = [s] := by
  simp [components, splitSep_of_not_mem _ h.2.2.2]

theorem cleanStep_plain {s : String} (h : PlainName s) (st : List String) :
    cleanStep st s = s :: st := by
  simp [cleanStep, h.1, h.2.1, h.2.2.1]

theorem uploadDir_eq : uploadDir = ["tmp"] := by decide

theorem transferDir_plain {s : String} (h : PlainName s) : transferDir s = ["tmp", s] := by
  have h1 : cleanStep [] "tmp" = ["tmp"] := by decide
  simp [transferDir, Join, uploadDir_eq, components_plain h, Clean, List.foldl_append,
    cleanStep_plain h, h1]

theorem chunkFile_plain {s : String} (h : PlainName s) :
    chunkFile s = ["tmp", s, "data"] := by
  have h1 : cleanStep [] "tmp" = ["tmp"] := by decide
  have h2 : ∀ st, cleanStep st "data" = "data" :: st := fun st => cleanStep_plain (by decide) st
  have h3 : components "data" = ["data"] := by decide
  simp [chunkFile, transferDir_plain h, Join, h3, Clean, List.foldl_append, cleanStep_plain h,
    h1, h2]

theorem metadataFile_plain {s : String} (h : PlainName s) :
    metadataFile s = ["tmp", s, "metadata.txt"] := by
  have h1 : cleanStep [] "tmp" = ["tmp"] := by decide
  have h2 : ∀ st, cleanStep st "metadata.txt" = "metadata.txt" :: st :=
    fun st => cleanStep_plain (by decide) st
  have h3 : components "metadata.txt" = ["metadata.txt"] := by decide
  simp [metadataFile, transferDir_plain h, Join, h3, Clean, List.foldl_append,
    cleanStep_plain h, h1, h2]

/-! ## The file store: lemmas -/

namespace FS

theorem walkFrom_append (ent : Path → Option Entry) (cs : List String) (d : String)
    (ds : List String) (pre : Path) :
    walkFrom ent pre (cs ++ d :: ds) =
      match walkFrom ent pre cs with
      | .ok .dir =>
        if nameTooLong d then .error .ENAMETOOLONG else walkFrom ent (pre ++ cs ++ [d]) ds
      | .ok (.file _) => .error .ENOTDIR
      | .error e => .error e := by
  induction cs generalizing pre with
  | nil =>
    simp only [List.nil_append, List.append_nil, walkFrom]
    cases h : ent pre with
    | none => rfl
    | some e => cases e <;> rfl
  | cons c cs ih =>
    simp only [List.cons_append, walkFrom]
    cases h : ent pre with
    | none => rfl
    | some e =>
      cases e with
      | file _ => rfl
      | dir =>
        by_cases hc : nameTooLong c = true
        · simp [hc]
        · have := ih (pre ++ [c])
          simp only [List.append_assoc, List.singleton_append, List.cons_append] at this ⊢
          simp only [hc, Bool.false_eq_true, if_false]
          exact this

/-- The resolution of a path from the resolution of its parent. -/
theorem lookup_snoc_gen (fs : FS) (p : Path) (c : String) :
    fs.lookup (p ++ [c]) =
      match fs.lookup p with
      | .ok .dir =>
        if nameTooLong c then .error .ENAMETOOLONG
        else (match fs.ent (p ++ [c]) with
          | some e => .ok e
          | none => .error .ENOENT)
      | .ok (.file _) => .error .ENOTDIR
      | .error e => .error e := by
  unfold lookup
  rw [walkFrom_append]
  simp only [List.nil_append, walkFrom]

theorem lookup_snoc (fs : FS) (p : Path) (c : String) (hn : nameTooLong c = false) :
    fs.lookup (p ++ [c]) =
      match fs.lookup p with
      | .ok .dir =>
        (match fs.ent (p ++ [c]) with
          | some e => .ok e
          | none => .error .ENOENT)
      | .ok (.file _) => .error .ENOTDIR
      | .error e => .error e := by
  rw [lookup_snoc_gen]
  simp [hn]

theorem lookup_nil (fs : FS) :
    fs.lookup [] = match fs.ent [] with
      | some e => .ok e
      | none => .error .ENOENT := by
  simp only [lookup, walkFrom]

/-- Every proper prefix of a path that resolves is a directory. -/
theorem lookup_prefix_dir (fs : FS) (q : Path) (d : String) (ds : List String) (e : Entry)
    (h : fs.lookup (q ++ d :: ds) = .ok e) : fs.lookup q = .ok .dir := by
  unfold lookup at h ⊢
  rw [walkFrom_append] at h
  cases hq : walkFrom fs.ent [] q with
  | error x => rw [hq] at h; cases h
  | ok y =>
    cases y with
    | dir => rfl
    | file _ => rw [hq] at h; cases h

/-- Every name on a path that resolves is short enough. -/
theorem name_ok_of_lookup (fs : FS) (q : Path) (d : String) (ds : List String) (e : Entry)
    (h : fs.lookup (q ++ d :: ds) = .ok e) : nameTooLong d = false := by
  have hq := lookup_prefix_dir fs q d ds e h
  unfold lookup at h hq
  rw [walkFrom_append, hq] at h
  by_cases hc : nameTooLong d = true
  · simp [hc] at h
  · simpa using hc

theorem walkFrom_update (ent : Path → Option Entry) (q : Path) (x : Option Entry)
    (cs : List String) (pre : Path) (h : ¬ q <+: pre ++ cs) :
    walkFrom (fun r => if r = q then x else ent r) pre cs = walkFrom ent pre cs := by
  induction cs generalizing pre with
  | nil =>
    have hne : pre ≠ q := by
      intro e; apply h; simp [e]
    simp [walkFrom, hne]
  | cons c cs ih =>
    have hne : pre ≠ q := by
      intro e; apply h; simp [e]
    have h2 : ¬ q <+: (pre ++ [c]) ++ cs := by simpa using h
    simp only [walkFrom, hne, if_false, ih (pre ++ [c]) h2]

/-- Replacing the entry at `q` is not seen by the resolution of a path that
does not pass through `q`. -/
theorem lookup_set (fs : FS) (q : Path) (x : Option Entry) (p : Path) (h : ¬ q <+: p) :
    (fs.set q x).lookup p = fs.lookup p := by
  unfold lookup set
  exact walkFrom_update fs.ent q x p [] (by simpa using h)

@[simp] theorem set_cwd (fs : FS) (q : Path) (x : Option Entry) : (fs.set q x).cwd = fs.cwd := rfl

@[simp] theorem set_abs (fs : FS) (q : Path) (x : Option Entry) (rel : RelPath) :
    (fs.set q x).abs rel = fs.abs rel := rfl

@[simp] theorem set_ent_self (fs : FS) (q : Path) (x : Option Entry) : (fs.set q x).ent q = x := by
  simp [set]

theorem set_ent_ne (fs : FS) (q : Path) (x : Option Entry) (p : Path) (h : p ≠ q) :
    (fs.set q x).ent p = fs.ent p := by
  simp [set, h]

@[simp] theorem set_set (fs : FS) (q : Path) (x y : Option Entry) :
    (fs.set q x).set q y = fs.set q y := by
  unfold set
  congr 1
  funext r
  by_cases h : r = q <;> simp [h]

theorem set_same (fs : FS) (q : Path) (x : Option Entry) (h : fs.ent q = x) :
    fs.set q x = fs := by
  cases fs with
  | mk cwd ent =>
    unfold set
    congr 1
    funext r
    by_cases hr : r = q
    · simp only [hr, if_true]; exact h.symm
    · simp [hr]

/-- The entry written at `p` is what `p` resolves to when its parent is a
directory. -/
theorem lookup_set_self (fs : FS) (p : Path) (c : String) (e : Entry)
    (hn : nameTooLong c = false)
    (h : fs.lookup p = .ok .dir) : (fs.set (p ++ [c]) (some e)).lookup (p ++ [c]) = .ok e := by
  rw [lookup_snoc _ _ _ hn, lookup_set, h]
  · simp
  · intro hp
    have := hp.length_le
    simp at this

theorem ent_of_lookup (fs : FS) (p : Path) (e : Entry) (h : fs.lookup p = .ok e) :
    fs.ent p = some e := by
  rcases List.eq_nil_or_concat p with rfl | ⟨q, c, rfl⟩
  · rw [lookup_nil] at h
    cases he : fs.ent [] with
    | none => rw [he] at h; cases h
    | some y => rw [he] at h; cases h; rfl
  · rw [show q.concat c = q ++ [c] by simp] at h ⊢
    have hn := name_ok_of_lookup fs q c [] e h
    rw [lookup_snoc _ _ _ hn] at h
    cases hq : fs.lookup q with
    | error x => rw [hq] at h; cases h
    | ok y =>
      cases y with
      | file _ => rw [hq] at h; cases h
      | dir =>
        rw [hq] at h
        cases he : fs.ent (q ++ [c]) with
        | none => rw [he] at h; cases h
        | some z => rw [he] at h; cases h; rfl

/-- The path checks of the paths of a transfer. -/
theorem size_tmp : ("tmp" : String).utf8ByteSize = 3 := by decide

theorem size_data : ("data" : String).utf8ByteSize = 4 := by decide

theorem size_metadata : ("metadata.txt" : String).utf8ByteSize = 12 := by decide

theorem nameTooLong_data : nameTooLong "data" = false := by decide

theorem nameTooLong_tmp : nameTooLong "tmp" = false := by decide

theorem nameTooLong_metadata : nameTooLong "metadata.txt" = false := by decide

theorem hasNul_tmp : hasNul "tmp" = false := by decide

theorem hasNul_data : hasNul "data" = false := by decide

theorem hasNul_metadata : hasNul "metadata.txt" = false := by decide

theorem pathCheck_two (s : String) :
    pathCheck ["tmp", s] = none ↔ hasNul s = false ∧ s.utf8ByteSize + 4 < pathMax := by
  simp only [pathCheck, List.any_cons, List.any_nil, hasNul_tmp, Bool.false_or, Bool.or_false,
    pathLength, List.map_cons, List.map_nil, List.sum_cons, List.sum_nil, size_tmp]
  by_cases h : hasNul s = true
  · simp [h]
  · simp only [h, Bool.false_eq_true, if_false]
    have hf : hasNul s = false := by simpa using h
    constructor
    · intro hh
      split at hh
      · cases hh
      · exact ⟨trivial, by omega⟩
    · rintro ⟨_, hl⟩
      rw [if_neg (by omega)]

theorem pathCheck_three (s x : String) (hx : hasNul x = false) :
    pathCheck ["tmp", s, x] = none ↔
      hasNul s = false ∧ s.utf8ByteSize + x.utf8ByteSize + 5 < pathMax := by
  simp only [pathCheck, List.any_cons, List.any_nil, hasNul_tmp, hx, Bool.false_or,
    Bool.or_false, pathLength, List.map_cons, List.map_nil, List.sum_cons, List.sum_nil,
    size_tmp]
  by_cases h : hasNul s = true
  · simp [h]
  · simp only [h, Bool.false_eq_true, if_false]
    have hf : hasNul s = false := by simpa using h
    constructor
    · intro hh
      split at hh
      · cases hh
      · exact ⟨trivial, by omega⟩
    · rintro ⟨_, hl⟩
      rw [if_neg (by omega)]

theorem nameTooLong_false_iff (s : String) : nameTooLong s = false ↔ s.utf8ByteSize ≤ nameMax := by
  simp [nameTooLong]

theorem abs_plain2 (fs : FS) (a b : String) (ha : a ≠ "..") (hb : b ≠ "..") :
    fs.abs [a, b] = fs.cwd ++ [a, b] := by
  simp [abs, ha, hb]

theorem abs_plain3 (fs : FS) (a b c : String) (ha : a ≠ "..") (hb : b ≠ "..")
    (hc : c ≠ "..") : fs.abs [a, b, c] = fs.cwd ++ [a, b, c] := by
  simp [abs, ha, hb, hc]

end FS

/-! ## The handlers on an existing transfer -/

theorem chAbs_eq (fs : FS) (s : String) : chAbs fs s = tdAbs fs s ++ ["data"] := by
  simp [chAbs, tdAbs]

theorem abs_transferDir (fs : FS) {s : String} (h : PlainName s) :
    fs.abs (transferDir s) = tdAbs fs s := by
  rw [transferDir_plain h, tdAbs]
  exact FS.abs_plain2 fs _ _ (by decide) h.2.2.1

theorem abs_chunkFile (fs : FS) {s : String} (h : PlainName s) :
    fs.abs (chunkFile s) = chAbs fs s := by
  rw [chunkFile_plain h, chAbs]
  exact FS.abs_plain3 fs _ _ _ (by decide) h.2.2.1 (by decide)

theorem osStat_eq (fs : FS) (rel : RelPath) (h : pathCheck rel = none) :
    osStat fs rel = fs.lookup (fs.abs rel) := by
  simp [osStat, h]

theorem pathCheck_of_ok (fs : FS) (rel : RelPath) (e : Entry) (h : osStat fs rel = .ok e) :
    pathCheck rel = none := by
  unfold osStat at h
  cases hc : pathCheck rel with
  | none => rfl
  | some x => rw [hc] at h; cases h

theorem pathCheck_of_enoent (fs : FS) (rel : RelPath) (h : osStat fs rel = .error .ENOENT) :
    pathCheck rel = none := by
  unfold osStat at h
  cases hc : pathCheck rel with
  | none => rfl
  | some x =>
    rw [hc] at h
    simp only [Except.error.injEq] at h
    subst h
    unfold pathCheck at hc
    split at hc
    · cases hc
    · split at hc <;> cases hc

theorem pathCheck_td_of_ch {s : String} (h : PlainName s)
    (hc : pathCheck (chunkFile s) = none) : pathCheck (transferDir s) = none := by
  rw [chunkFile_plain h, FS.pathCheck_three s "data" FS.hasNul_data, FS.size_data] at hc
  rw [transferDir_plain h, FS.pathCheck_two]
  exact ⟨hc.1, by omega⟩

theorem pathCheck_ch_of_td {s : String} (h : PlainName s)
    (hc : pathCheck (transferDir s) = none) (hn : nameTooLong s = false) :
    pathCheck (chunkFile s) = none := by
  rw [transferDir_plain h, FS.pathCheck_two] at hc
  rw [chunkFile_plain h, FS.pathCheck_three s "data" FS.hasNul_data, FS.size_data]
  have := (FS.nameTooLong_false_iff s).mp hn
  refine ⟨hc.1, ?_⟩
  simp only [nameMax, pathMax] at this ⊢
  omega

theorem pathCheck_meta_of_td {s : String} (h : PlainName s)
    (hc : pathCheck (transferDir s) = none) (hn : nameTooLong s = false) :
    pathCheck (metadataFile s) = none := by
  rw [transferDir_plain h, FS.pathCheck_two] at hc
  rw [metadataFile_plain h, FS.pathCheck_three s "metadata.txt" FS.hasNul_metadata,
    FS.size_metadata]
  have := (FS.nameTooLong_false_iff s).mp hn
  refine ⟨hc.1, ?_⟩
  simp only [nameMax, pathMax] at this ⊢
  omega

/-- The path of the blob passes the path checks when the transfer is there. -/
theorem hasBlob_check (fs : FS) {s : String} (d : List UInt8) (hb : HasBlob fs s d) :
    pathCheck (chunkFile s) = none := by
  rcases hb.2 with hc | ⟨_, hc⟩
  · exact pathCheck_of_ok fs _ _ hc
  · exact pathCheck_of_enoent fs _ hc

theorem hasBlob_look (fs : FS) {s : String} (h : PlainName s) (d : List UInt8)
    (hb : HasBlob fs s d) :
    fs.lookup (tdAbs fs s) = .ok .dir ∧
      (fs.lookup (chAbs fs s) = .ok (.file d) ∨
        (d = [] ∧ fs.lookup (chAbs fs s) = .error .ENOENT)) := by
  have hck := hasBlob_check fs d hb
  have hct := pathCheck_td_of_ch h hck
  unfold HasBlob at hb
  rw [osStat_eq fs _ hck, osStat_eq fs _ hct, abs_transferDir fs h, abs_chunkFile fs h] at hb
  exact hb

theorem hasBlob_dir (fs : FS) {s : String} (h : PlainName s) (d : List UInt8)
    (hb : HasBlob fs s d) : fs.lookup (tdAbs fs s) = .ok .dir :=
  (hasBlob_look fs h d hb).1

theorem hasBlob_of (fs : FS) {s : String} (h : PlainName s) (d : List UInt8)
    (hck : pathCheck (chunkFile s) = none)
    (hl : fs.lookup (tdAbs fs s) = .ok .dir ∧
      (fs.lookup (chAbs fs s) = .ok (.file d) ∨
        (d = [] ∧ fs.lookup (chAbs fs s) = .error .ENOENT))) :
    HasBlob fs s d := by
  have hct := pathCheck_td_of_ch h hck
  unfold HasBlob
  rw [osStat_eq fs _ hck, osStat_eq fs _ hct, abs_transferDir fs h, abs_chunkFile fs h]
  exact hl

theorem lookup_chunk (fs : FS) (s : String) :
    fs.lookup (chAbs fs s) =
      match fs.lookup (tdAbs fs s) with
      | .ok .dir =>
        (match fs.ent (chAbs fs s) with
          | some e => .ok e
          | none => .error .ENOENT)
      | .ok (.file _) => .error .ENOTDIR
      | .error e => .error e := by
  have := FS.lookup_snoc fs (tdAbs fs s) "data" FS.nameTooLong_data
  rw [← chAbs_eq] at this
  exact this

/-- What the blob path holds when the transfer has received `d`. -/
theorem hasBlob_ent (fs : FS) {s : String} (h : PlainName s) (d : List UInt8)
    (hb : HasBlob fs s d) :
    fs.ent (chAbs fs s) = some (.file d) ∨ (d = [] ∧ fs.ent (chAbs fs s) = none) := by
  rcases hasBlob_look fs h d hb with ⟨hd, hc | ⟨rfl, hc⟩⟩
  · exact Or.inl (FS.ent_of_lookup _ _ _ hc)
  · right
    refine ⟨rfl, ?_⟩
    rw [lookup_chunk, hd] at hc
    cases he : fs.ent (chAbs fs s) with
    | none => rfl
    | some e => rw [he] at hc; cases hc

theorem head_of_hasBlob (fs : FS) (s : String) (d : List UInt8)
    (hb : HasBlob fs s d) :
    handleHead fs s = { status := 200, uploadOffset := some (d.length : Int), body := "" } := by
  have hb2 := hb
  unfold HasBlob transferDir at hb2
  unfold chunkFile transferDir at hb2
  rcases hb2 with ⟨hd, hc | ⟨rfl, hc⟩⟩
  · simp [handleHead, hd, hc, isNotExist, Entry.size]
  · simp [handleHead, hd, hc, isNotExist]

theorem parseInt_ne_empty {s : String} {v : Int} (h : ParseInt s = some v) : s ≠ "" := by
  rintro rfl
  simp [ParseInt] at h

theorem set_chunk_lookup (fs : FS) (s : String)
    (hd : fs.lookup (tdAbs fs s) = .ok .dir) (x : List UInt8) :
    (fs.set (chAbs fs s) (some (.file x))).lookup (chAbs fs s) = .ok (.file x) := by
  rw [chAbs_eq]
  exact FS.lookup_set_self fs _ _ _ FS.nameTooLong_data hd

theorem set_chunk_hasBlob (fs : FS) {s : String} (h : PlainName s)
    (hck : pathCheck (chunkFile s) = none)
    (hd : fs.lookup (tdAbs fs s) = .ok .dir) (x : List UInt8) :
    HasBlob (fs.set (chAbs fs s) (some (.file x))) s x := by
  apply hasBlob_of _ h _ hck
  have hnp : ¬ chAbs fs s <+: tdAbs fs s := by
    intro hp
    have := hp.length_le
    simp [chAbs, tdAbs] at this
  refine ⟨?_, Or.inl ?_⟩
  · show (fs.set (chAbs fs s) _).lookup (tdAbs fs s) = _
    rw [FS.lookup_set _ _ _ _ hnp, hd]
  · exact set_chunk_lookup fs s hd x

/-- The write phase of `handlePatch` on an existing transfer: the chunk is
written into the blob at the offset, then the completion check runs. -/
theorem handlePatch_write (fs : FS) (req : PatchReq) {s : String} (h : PlainName s)
    (d : List UInt8) (hb : HasBlob fs s d) (o t : Int)
    (ho : ParseInt req.uploadOffset = some o) (ho0 : 0 ≤ o)
    (ht : ParseInt req.uploadLength = some t) :
    handlePatch fs req s =
      finishPatch (fs.set (chAbs fs s) (some (.file (written d o.toNat req.body)))) req s o t := by
  have hck := hasBlob_check fs d hb
  have hstat : osStat fs (Join uploadDir s) = .ok .dir := hb.1
  obtain ⟨hd, hc⟩ := hasBlob_look fs h d hb
  have hch : fs.abs (chunkFile s) = chAbs fs s := abs_chunkFile fs h
  have hdrop : (chAbs fs s).dropLast = tdAbs fs s := by
    rw [chAbs_eq]; simp
  have hseek : Seek o = .ok o.toNat := by simp [Seek, not_lt.mpr ho0]
  have hcf : Join (Join uploadDir s) "data" = chunkFile s := rfl
  unfold handlePatch
  simp only [hstat, isNotExist, parseInt_ne_empty ho, parseInt_ne_empty ht, ho, ht, or_self,
    if_false, Bool.false_eq_true, hcf]
  rcases hc with hc | ⟨rfl, hc⟩
  · have hopen : OpenFile fs (chunkFile s) false = .ok (fs, chAbs fs s) := by
      simp [OpenFile, hck, hch, hc]
    have he : fs.ent (chAbs fs s) = some (.file d) := FS.ent_of_lookup _ _ _ hc
    simp only [hopen, hseek, Copy, contentOf, he, hcf]
    by_cases hbody : req.body = []
    · simp only [hbody, if_true, written]
      rw [FS.set_same fs _ _ he]
      simp [finishPatch, hbody, finalPath, finalName]
    · simp only [hbody, if_false, written]
      simp [finishPatch, finalPath, finalName]
  · have he : fs.ent (chAbs fs s) = none := by
      have hc2 := hc
      rw [lookup_chunk, hd] at hc2
      cases hx : fs.ent (chAbs fs s) with
      | none => rfl
      | some e => rw [hx] at hc2; cases hc2
    have hopen : OpenFile fs (chunkFile s) false =
        .ok (fs.set (chAbs fs s) (some (.file [])), chAbs fs s) := by
      simp [OpenFile, hck, hch, hc, hdrop, hd]
    simp only [hopen, hseek, Copy, contentOf, FS.set_ent_self, hcf, FS.set_set]
    by_cases hbody : req.body = []
    · simp [hbody, written, finishPatch, finalPath, finalName]
    · simp [hbody, written, finishPatch, finalPath, finalName]

/-! ## Writing into the blob: lemmas -/

theorem writeAt_length (d : List UInt8) (pos : Nat) (b : List UInt8) (hb : b ≠ []) :
    (writeAt d pos b).length = max d.length (pos + b.length) := by
  have : 0 < b.length := List.length_pos.mpr hb
  simp only [writeAt, List.length_append, List.length_take, List.length_replicate,
    List.length_drop]
  omega

theorem written_length (d : List UInt8) (pos : Nat) (b : List UInt8) (h : pos ≤ d.length) :
    (written d pos b).length = max d.length (pos + b.length) := by
  unfold written
  split
  · next hb => simp [hb]; omega
  · next hb => exact writeAt_length d pos b hb

theorem length_le_written (d : List UInt8) (pos : Nat) (b : List UInt8) :
    d.length ≤ (written d pos b).length := by
  unfold written
  split
  · exact le_refl _
  · next hb => rw [writeAt_length d pos b hb]; exact le_max_left _ _

theorem writeAt_prefix_length (d : List UInt8) (pos : Nat) :
    (d.take pos ++ List.replicate (pos - d.length) (0 : UInt8)).length = pos := by
  simp only [List.length_append, List.length_take, List.length_replicate]
  omega

theorem writeAt_eq (d : List UInt8) (pos : Nat) (b : List UInt8) :
    writeAt d pos b =
      (d.take pos ++ List.replicate (pos - d.length) (0 : UInt8)) ++ (b ++ d.drop (pos + b.length)) := by
  simp [writeAt, List.append_assoc]

/-- The written range holds the chunk. -/
theorem written_inside (d : List UInt8) (pos : Nat) (b : List UInt8) (i : Nat)
    (hi : i < b.length) : (written d pos b)[pos + i]? = b[i]? := by
  have hb : b ≠ [] := by
    intro e; simp [e] at hi
  simp only [written, hb, if_false]
  rw [writeAt_eq, List.getElem?_append_right (by rw [writeAt_prefix_length]; omega),
    writeAt_prefix_length, Nat.add_sub_cancel_left, List.getElem?_append_left hi]

/-- The bytes outside the written range are the old ones. -/
theorem written_outside (d : List UInt8) (pos : Nat) (b : List UInt8) (i : Nat)
    (hi : i < d.length) (ho : i < pos ∨ pos + b.length ≤ i) :
    (written d pos b)[i]? = d[i]? := by
  unfold written
  split
  · rfl
  · rcases ho with ho | ho
    · rw [writeAt_eq, List.getElem?_append_left (by rw [writeAt_prefix_length]; exact ho),
        List.getElem?_append_left (by simp; omega), List.getElem?_take_of_lt ho]
    · rw [writeAt_eq, List.getElem?_append_right (by rw [writeAt_prefix_length]; omega),
        writeAt_prefix_length, List.getElem?_append_right (by omega), List.getElem?_drop]
      congr 1
      omega

theorem written_append (d b : List UInt8) : written d d.length b = d ++ b := by
  unfold written
  split
  · next hb => simp [hb]
  · simp [writeAt]

/-- Writing the same chunk at the same offset again changes nothing. -/
theorem written_idem (d : List UInt8) (pos : Nat) (b : List UInt8) :
    written (written d pos b) pos b = written d pos b := by
  unfold written
  split
  · rfl
  · next hb =>
    have hlen := writeAt_length d pos b hb
    have h1 : (writeAt d pos b).take pos =
        d.take pos ++ List.replicate (pos - d.length) (0 : UInt8) := by
      rw [writeAt_eq, List.take_append_of_le_length (by rw [writeAt_prefix_length]),
        List.take_of_length_le (by rw [writeAt_prefix_length])]
    have h2 : (writeAt d pos b).drop (pos + b.length) = d.drop (pos + b.length) := by
      rw [writeAt_eq, List.drop_append_eq_append_drop, writeAt_prefix_length,
        List.drop_of_length_le (by rw [writeAt_prefix_length]; omega), List.nil_append,
        Nat.add_sub_cancel_left, List.drop_append_eq_append_drop,
        List.drop_of_length_le (le_refl _)]
      simp
    have h3 : pos - (writeAt d pos b).length = 0 := by
      rw [hlen]; omega
    conv_lhs => rw [writeAt, h1, h2, h3]
    simp [writeAt]

/-! ## Numbers: lemmas -/

theorem wrapInt64_of_range (n : Int) (h0 : 0 ≤ n) (h1 : n < 2 ^ 63) : wrapInt64 n = n := by
  unfold wrapInt64
  omega

theorem toInt64_lt {neg : Bool} {un : Nat} {v : Int} (h : toInt64 neg un = some v) :
    v < 2 ^ 63 := by
  unfold toInt64 at h
  split at h
  · split at h
    · cases h
    · cases h
      have : (0 : Int) ≤ (un : Int) := Int.ofNat_nonneg un
      omega
  · split at h
    · cases h
    · next hlt =>
      cases h
      have : un < 2 ^ 63 := Nat.lt_of_not_ge hlt
      exact_mod_cast this

theorem parseSigned_lt {neg : Bool} {ds : List Char} {v : Int}
    (h : parseSigned neg ds = some v) : v < 2 ^ 63 := by
  unfold parseSigned at h
  split at h
  · cases h
  · rw [Option.bind_eq_some] at h
    obtain ⟨un, _, hv⟩ := h
    exact toInt64_lt hv

theorem parseInt_lt {s : String} {v : Int} (h : ParseInt s = some v) : v < 2 ^ 63 := by
  unfold ParseInt at h
  split at h
  · cases h
  · split at h
    · exact parseSigned_lt h
    · split at h
      · exact parseSigned_lt h
      · exact parseSigned_lt h

/-! ## Calls that stay below the declared total -/

theorem finishPatch_below (fsW : FS) (req : PatchReq) (s : String) (o t : Int)
    (h : wrapInt64 (o + req.body.length) < t) :
    (finishPatch fsW req s o t).fs = fsW ∧ (finishPatch fsW req s o t).saved = false := by
  unfold finishPatch
  by_cases hf : req.bodyFails = true
  · simp [hf]
  · simp [hf, not_le.mpr h]

theorem finishPatch_below_resp (fsW : FS) (req : PatchReq) (s : String) (o t : Int)
    (hf : req.bodyFails = false) (h : wrapInt64 (o + req.body.length) < t) :
    (finishPatch fsW req s o t).resp =
      { status := 204, uploadOffset := some (wrapInt64 (o + req.body.length)), body := "" } := by
  unfold finishPatch
  simp [hf, not_le.mpr h]

/-- C3: on an existing transfer whose blob holds `d`, a `handlePatch` call at
offset `o ≤ |d|` with body `b` that does not trigger finalization (the body
ends in a read error, or the new offset stays below the declared total)
leaves a blob of size `max |d| (o + |b|)` that holds `b` at the positions
`[o, o + |b|)` and the bytes of `d` at every other position of `d`. -/
theorem patch_writes_in_place (fs : FS) (req : PatchReq) (transferID : String)
    (d : List UInt8) (o : Nat) (t : Int)
    (hid : PlainName transferID) (hb : HasBlob fs transferID d)
    (ho : ParseInt req.uploadOffset = some (o : Int)) (hod : o ≤ d.length)
    (ht : ParseInt req.uploadLength = some t)
    (hnf : req.bodyFails = true ∨ wrapInt64 ((o : Int) + req.body.length) < t) :
    ∃ d', HasBlob (handlePatch fs req transferID).fs transferID d' ∧
      d'.length = max d.length (o + req.body.length) ∧
      (∀ i, i < req.body.length → d'[o + i]? = req.body[i]?) ∧
      (∀ i, i < d.length → (i < o ∨ o + req.body.length ≤ i) → d'[i]? = d[i]?) := by
  have hw := handlePatch_write fs req hid d hb (o : Int) t ho (Int.ofNat_nonneg o) ht
  have hfin : (finishPatch
      (fs.set (chAbs fs transferID) (some (.file (written d (o : Int).toNat req.body))))
      req transferID (o : Int) t).fs =
      fs.set (chAbs fs transferID) (some (.file (written d (o : Int).toNat req.body))) := by
    rcases hnf with h | h
    · simp [finishPatch, h]
    · exact (finishPatch_below _ req transferID (o : Int) t h).1
  refine ⟨written d o req.body, ?_, written_length d o req.body hod,
    fun i hi => written_inside d o req.body i hi,
    fun i hi hr => written_outside d o req.body i hi hr⟩
  rw [hw, hfin]
  have hd : fs.lookup (tdAbs fs transferID) = .ok .dir := (hasBlob_dir fs hid d hb)
  simpa using set_chunk_hasBlob fs hid (hasBlob_check fs d hb) hd (written d o req.body)

/-! ## Opening and renaming: lemmas -/

theorem lookup_dropLast_dir (fs : FS) (p : Path) (e : Entry) (hne : p ≠ [])
    (h : fs.lookup p = .ok e) : fs.lookup p.dropLast = .ok .dir := by
  have hp : p = p.dropLast ++ [p.getLast hne] := (List.dropLast_append_getLast hne).symm
  rw [hp] at h
  exact FS.lookup_prefix_dir fs _ _ [] e h

/-- A prefix of a path that resolves to a directory resolves to a directory. -/
theorem lookup_dir_above (fs : FS) (q p : Path) (hp : fs.lookup p = .ok .dir)
    (hq : q <+: p) : fs.lookup q = .ok .dir := by
  obtain ⟨r, rfl⟩ := hq
  cases r with
  | nil => simpa using hp
  | cons d ds => exact FS.lookup_prefix_dir fs q d ds _ hp

theorem getLastD_eq (p : List String) (hne : p ≠ []) : p.getLastD "" = p.getLast hne := by
  conv_lhs => rw [← List.dropLast_append_getLast hne]
  rw [List.getLastD_concat]

theorem lookup_of_parent (fs : FS) (p : Path) (e : Entry) (hne : p ≠ [])
    (hp : fs.lookup p.dropLast = .ok .dir) (hn : nameTooLong (p.getLastD "") = false)
    (he : fs.ent p = some e) : fs.lookup p = .ok e := by
  have hl : p.getLastD "" = p.getLast hne := getLastD_eq p hne
  rw [hl] at hn
  have h := FS.lookup_snoc fs p.dropLast (p.getLast hne) hn
  rw [List.dropLast_append_getLast hne, hp, he] at h
  exact h

/-- The last name of a path that resolves is short enough. -/
theorem name_ok_last (fs : FS) (p : Path) (e : Entry) (h : fs.lookup p = .ok e) :
    nameTooLong (p.getLastD "") = false := by
  rcases List.eq_nil_or_concat p with rfl | ⟨q, c, rfl⟩
  · decide
  · rw [show q.concat c = q ++ [c] by simp] at h ⊢
    rw [List.getLastD_concat]
    exact FS.name_ok_of_lookup fs q c [] e h

/-- The last name of a path that is missing from an existing directory is
short enough. -/
theorem name_ok_missing (fs : FS) (p : Path) (hne : p ≠ [])
    (h : fs.lookup p = .error .ENOENT) (hp : fs.lookup p.dropLast = .ok .dir) :
    nameTooLong (p.getLastD "") = false := by
  have hl : p.getLastD "" = p.getLast hne := getLastD_eq p hne
  rw [hl]
  have hs := FS.lookup_snoc_gen fs p.dropLast (p.getLast hne)
  rw [List.dropLast_append_getLast hne, hp, h] at hs
  by_cases hc : nameTooLong (p.getLast hne) = true
  · simp [hc] at hs
  · simpa using hc

theorem lookup_chunk_of_ent (fs : FS) (s : String) (e : Entry)
    (hd : fs.lookup (tdAbs fs s) = .ok .dir) (he : fs.ent (chAbs fs s) = some e) :
    fs.lookup (chAbs fs s) = .ok e := by
  rw [lookup_chunk, hd, he]

theorem openFile_inv (fs : FS) {s : String} (h : PlainName s) (fs1 : FS) (f : Path)
    (hop : OpenFile fs (chunkFile s) false = .ok (fs1, f)) :
    ∃ d, HasBlob fs s d ∧ fs1 = fs.set (chAbs fs s) (some (.file d)) ∧ f = chAbs fs s := by
  have hdrop : (chAbs fs s).dropLast = tdAbs fs s := by
    rw [chAbs_eq]; simp
  unfold OpenFile at hop
  cases hck : pathCheck (chunkFile s) with
  | some x => rw [hck] at hop; cases hop
  | none =>
    rw [hck] at hop
    simp only [abs_chunkFile fs h, hdrop] at hop
    cases hc : fs.lookup (chAbs fs s) with
    | ok e =>
      cases e with
      | dir => rw [hc] at hop; cases hop
      | file d =>
        rw [hc] at hop
        simp only [Bool.false_eq_true, if_false, Except.ok.injEq, Prod.mk.injEq] at hop
        refine ⟨d, ?_, ?_, hop.2.symm⟩
        · apply hasBlob_of fs h d hck
          refine ⟨?_, Or.inl hc⟩
          rw [chAbs_eq] at hc
          exact FS.lookup_prefix_dir fs _ _ [] _ hc
        · rw [FS.set_same fs _ _ (FS.ent_of_lookup _ _ _ hc)]
          exact hop.1.symm
    | error x =>
      rw [hc] at hop
      cases x with
      | ENOENT =>
        simp only at hop
        cases hd : fs.lookup (tdAbs fs s) with
        | error y => rw [hd] at hop; cases hop
        | ok e =>
          cases e with
          | file _ => rw [hd] at hop; cases hop
          | dir =>
            rw [hd] at hop
            simp only [Except.ok.injEq, Prod.mk.injEq] at hop
            refine ⟨[], ?_, hop.1.symm, hop.2.symm⟩
            apply hasBlob_of fs h [] hck
            exact ⟨hd, Or.inr ⟨rfl, hc⟩⟩
      | ENOTDIR => cases hop
      | EISDIR => cases hop
      | EINVAL => cases hop
      | ENAMETOOLONG => cases hop
      | EEXIST => cases hop

/-- What a successful `Rename` of a regular file did. -/
theorem rename_inv (fs : FS) (srel drel : RelPath) (fs3 : FS)
    (h : Rename fs srel drel = .ok fs3) :
    ∃ d, (pathCheck srel = none ∧ pathCheck drel = none) ∧
      fs.lookup (fs.abs srel) = .ok (.file d) ∧
      ((fs3 = fs ∧ fs.abs srel = fs.abs drel) ∨
        (fs.abs srel ≠ fs.abs drel ∧ fs.lookup (fs.abs drel) ≠ .ok .dir ∧ fs.abs drel ≠ [] ∧
          (fs.lookup (fs.abs drel).dropLast = .ok .dir ∧
            nameTooLong ((fs.abs drel).getLastD "") = false) ∧
          fs3 = (fs.set (fs.abs srel) none).set (fs.abs drel) (some (.file d)))) := by
  unfold Rename at h
  cases hcs : pathCheck srel with
  | some x => rw [hcs] at h; cases h
  | none =>
  cases hcd : pathCheck drel with
  | some x => rw [hcs, hcd] at h; cases h
  | none =>
  rw [hcs, hcd] at h
  simp only at h
  cases hs : fs.lookup (fs.abs srel) with
  | error x => rw [hs] at h; cases h
  | ok e =>
    cases e with
    | dir => rw [hs] at h; cases h
    | file d =>
      rw [hs] at h
      simp only at h
      refine ⟨d, ⟨rfl, rfl⟩, rfl, ?_⟩
      have hroot : ∀ x, fs.lookup [] = .ok (.file x) → fs.abs srel = [] := by
        intro x hx
        rcases hsa : fs.abs srel with _ | ⟨c, cs⟩
        · rfl
        · rw [hsa] at hs
          have := FS.lookup_prefix_dir fs [] c cs _ hs
          rw [hx] at this; cases this
      cases hq : fs.lookup (fs.abs drel) with
      | ok e2 =>
        cases e2 with
        | dir => rw [hq] at h; cases h
        | file x =>
          rw [hq] at h
          simp only at h
          by_cases hsd : fs.abs srel = fs.abs drel
          · have h' := h
            simp only [hsd, if_true, Except.ok.injEq] at h'
            exact Or.inl ⟨h'.symm, hsd⟩
          · simp only [hsd, if_false, Except.ok.injEq] at h
            have hne : fs.abs drel ≠ [] := by
              intro e0
              rw [e0] at hq
              exact hsd ((hroot x hq).trans e0.symm)
            exact Or.inr ⟨hsd, by simp, hne,
              ⟨lookup_dropLast_dir fs _ _ hne hq, name_ok_last fs _ _ hq⟩, h.symm⟩
      | error y =>
        rw [hq] at h
        cases y with
        | ENOENT =>
          simp only at h
          cases hp : fs.lookup (fs.abs drel).dropLast with
          | error z => rw [hp] at h; cases h
          | ok e3 =>
            cases e3 with
            | file _ => rw [hp] at h; cases h
            | dir =>
              rw [hp] at h
              simp only [Except.ok.injEq] at h
              have hne : fs.abs drel ≠ [] := by
                intro e0
                rw [e0] at hq hp
                simp only [List.dropLast_nil] at hp
                rw [hp] at hq; cases hq
              have hsd : fs.abs srel ≠ fs.abs drel := by
                intro e0
                rw [e0, hq] at hs; cases hs
              exact Or.inr ⟨hsd, by simp, hne, ⟨rfl, name_ok_missing fs _ hne hq hp⟩, h.symm⟩
        | ENOTDIR => cases h
        | EISDIR => cases h
        | EINVAL => cases h
        | ENAMETOOLONG => cases h
        | EEXIST => cases h

/-- A regular file is moved onto a path that holds a regular file or
nothing and lies in an existing directory. -/
theorem rename_move (fs : FS) (srel drel : RelPath) (d : List UInt8)
    (hcs : pathCheck srel = none) (hcd : pathCheck drel = none)
    (hs : fs.lookup (fs.abs srel) = .ok (.file d)) (hsd : fs.abs srel ≠ fs.abs drel)
    (hq : (∃ x, fs.lookup (fs.abs drel) = .ok (.file x)) ∨
      fs.lookup (fs.abs drel) = .error .ENOENT)
    (hp : fs.lookup (fs.abs drel).dropLast = .ok .dir) :
    Rename fs srel drel =
      .ok ((fs.set (fs.abs srel) none).set (fs.abs drel) (some (.file d))) := by
  unfold Rename
  simp only [hcs, hcd, hs]
  rcases hq with ⟨x, hq⟩ | hq
  · simp [hq, hsd]
  · simp [hq, hp]

/-! ## The shape of every `handlePatch` call -/

@[simp] theorem tdAbs_set (fs : FS) (q : Path) (x : Option Entry) (s : String) :
    tdAbs (fs.set q x) s = tdAbs fs s := rfl

@[simp] theorem chAbs_set (fs : FS) (q : Path) (x : Option Entry) (s : String) :
    chAbs (fs.set q x) s = chAbs fs s := rfl

theorem chAbs_dropLast (fs : FS) (s : String) : (chAbs fs s).dropLast = tdAbs fs s := by
  rw [chAbs_eq]; simp

theorem chAbs_ne_nil (fs : FS) (s : String) : chAbs fs s ≠ [] := by
  simp [chAbs]

/-- Every call on a plain identifier either leaves the store alone and
fails, or finds an existing transfer with well-formed headers: then a
negative offset fails after the blob was opened, and any other offset
writes the chunk and runs the completion check. -/
theorem handlePatch_shape (fs : FS) (req : PatchReq) {s : String} (h : PlainName s) :
    ((handlePatch fs req s).fs = fs ∧ (handlePatch fs req s).saved = false ∧
        (handlePatch fs req s).resp.status ≠ 204) ∨
    ∃ d o t, HasBlob fs s d ∧ ParseInt req.uploadOffset = some o ∧
      ParseInt req.uploadLength = some t ∧
      ((o < 0 ∧ (handlePatch fs req s).fs = fs.set (chAbs fs s) (some (.file d)) ∧
          (handlePatch fs req s).saved = false ∧ (handlePatch fs req s).resp.status ≠ 204) ∨
       (0 ≤ o ∧ handlePatch fs req s =
          finishPatch (fs.set (chAbs fs s) (some (.file (written d o.toNat req.body))))
            req s o t)) := by
  have hcf : Join (Join uploadDir s) "data" = chunkFile s := rfl
  by_cases h1 : isNotExist (osStat fs (Join uploadDir s)) = true
  · left; simp [handlePatch, h1, httpError]
  by_cases h2 : req.uploadOffset = "" ∨ req.uploadLength = ""
  · left; simp [handlePatch, h1, h2, httpError]
  cases ho : ParseInt req.uploadOffset with
  | none => left; simp [handlePatch, h1, h2, ho, httpError]
  | some o =>
    cases ht : ParseInt req.uploadLength with
    | none => left; simp [handlePatch, h1, h2, ho, ht, httpError]
    | some t =>
      cases hop : OpenFile fs (chunkFile s) false with
      | error x => left; simp [handlePatch, h1, h2, ho, ht, hcf, hop, httpError]
      | ok pr =>
        obtain ⟨fs1, f⟩ := pr
        obtain ⟨d, hb, hfs1, hf⟩ := openFile_inv fs h fs1 f hop
        right
        refine ⟨d, o, t, hb, rfl, rfl, ?_⟩
        by_cases ho0 : o < 0
        · left
          refine ⟨ho0, ?_⟩
          simp [handlePatch, h1, h2, ho, ht, hcf, hop, Seek, ho0, httpError, hfs1]
        · right
          exact ⟨not_lt.mp ho0, handlePatch_write fs req h d hb o t ho (not_lt.mp ho0) ht⟩

/-- The completion check either leaves the store as the write left it, or
has moved the blob onto the final path. -/
theorem finishPatch_cases (fsW : FS) (req : PatchReq) {s : String} (h : PlainName s)
    (w : List UInt8) (hb : HasBlob fsW s w) (hw : fsW.ent (chAbs fsW s) = some (.file w))
    (o t : Int) :
    ((finishPatch fsW req s o t).fs = fsW) ∨
    ((req.bodyFails = false ∧ wrapInt64 (o + req.body.length) ≥ t) ∧
      chAbs fsW s ≠ fsW.abs (finalPath req.uploadName) ∧
      fsW.lookup (fsW.abs (finalPath req.uploadName)) ≠ .ok .dir ∧
      fsW.abs (finalPath req.uploadName) ≠ [] ∧
      (fsW.lookup (fsW.abs (finalPath req.uploadName)).dropLast = .ok .dir ∧
        nameTooLong ((fsW.abs (finalPath req.uploadName)).getLastD "") = false ∧
        pathCheck (finalPath req.uploadName) = none) ∧
      (finishPatch fsW req s o t).fs =
        (fsW.set (chAbs fsW s) none).set (fsW.abs (finalPath req.uploadName))
          (some (.file w))) := by
  unfold finishPatch
  by_cases hf : req.bodyFails = true
  · left; simp [hf]
  by_cases hc : wrapInt64 (o + req.body.length) ≥ t
  · simp only [hf, hc, if_true, if_false]
    cases hr : Rename fsW (chunkFile s) (finalPath req.uploadName) with
    | error x => left; rfl
    | ok fs3 =>
      obtain ⟨d, hck, hs, hcase⟩ := rename_inv fsW _ _ fs3 hr
      rw [abs_chunkFile fsW h] at hs hcase
      have hd : d = w := by
        have := FS.ent_of_lookup _ _ _ hs
        rw [hw] at this
        cases this; rfl
      subst hd
      rcases hcase with h3 | ⟨a, b, c, e, g⟩
      · left; exact h3.1
      · right
        refine ⟨⟨?_, ?_⟩, a, b, c, ⟨e.1, e.2, hck.2⟩, g⟩
        · simp [hf]
        · trivial
  · left; simp [hf, hc]

theorem finishPatch_not_saved (fsW : FS) (req : PatchReq) (s : String) (o t : Int)
    (h : (finishPatch fsW req s o t).saved = false) : (finishPatch fsW req s o t).fs = fsW := by
  unfold finishPatch at h ⊢
  by_cases hf : req.bodyFails = true
  · simp [hf]
  by_cases hc : wrapInt64 (o + req.body.length) ≥ t
  · simp only [hf, hc, if_true, if_false] at h ⊢
    cases hr : Rename fsW (chunkFile s) (finalPath req.uploadName) with
    | error x => rfl
    | ok fs3 => rw [hr] at h; cases h
  · simp [hf, hc]

/-- After the blob was moved away the transfer is there with nothing
received. -/
theorem moved_hasBlob (fsX : FS) {s : String} (h : PlainName s) (q : Path) (w : List UInt8)
    (hck : pathCheck (chunkFile s) = none)
    (hd : fsX.lookup (tdAbs fsX s) = .ok .dir) (hq : fsX.lookup q ≠ .ok .dir)
    (hne : chAbs fsX s ≠ q) :
    HasBlob ((fsX.set (chAbs fsX s) none).set q (some (.file w))) s [] := by
  apply hasBlob_of _ h [] hck
  have hnq : ¬ q <+: tdAbs fsX s := fun hp => hq (lookup_dir_above fsX q _ hd hp)
  have hnc : ¬ chAbs fsX s <+: tdAbs fsX s := by
    intro hp
    have := hp.length_le
    simp [chAbs, tdAbs] at this
  have htd : ((fsX.set (chAbs fsX s) none).set q (some (.file w))).lookup (tdAbs fsX s) =
      .ok .dir := by
    rw [FS.lookup_set _ _ _ _ hnq, FS.lookup_set _ _ _ _ hnc, hd]
  refine ⟨htd, Or.inr ⟨rfl, ?_⟩⟩
  have hsn := lookup_chunk ((fsX.set (chAbs fsX s) none).set q (some (.file w))) s
  simp only [chAbs_set, tdAbs_set] at hsn
  rw [htd, FS.set_ent_ne _ _ _ _ hne, FS.set_ent_self] at hsn
  exact hsn

/-! ## The received length across calls -/

theorem received_step (fs : FS) (req : PatchReq) {s : String} (h : PlainName s)
    (hs : (handlePatch fs req s).saved = false) :
    (handleHead (handlePatch fs req s).fs s).status = (handleHead fs s).status ∧
      received fs s ≤ received (handlePatch fs req s).fs s := by
  rcases handlePatch_shape fs req h with ⟨h1, _, _⟩ | ⟨d, o, t, hb, ho, ht, hcase⟩
  · rw [h1]; exact ⟨rfl, le_refl _⟩
  · have hd : fs.lookup (tdAbs fs s) = .ok .dir := (hasBlob_dir fs h d hb)
    rcases hcase with ⟨_, h1, _, _⟩ | ⟨ho0, h1⟩
    · rw [h1]
      have hb2 := set_chunk_hasBlob fs h (hasBlob_check fs d hb) hd d
      simp [received, head_of_hasBlob _ s d hb, head_of_hasBlob _ s d hb2]
    · rw [h1] at hs ⊢
      rw [finishPatch_not_saved _ _ _ _ _ hs]
      have hb2 := set_chunk_hasBlob fs h (hasBlob_check fs d hb) hd (written d o.toNat req.body)
      simp only [received, head_of_hasBlob _ s d hb, head_of_hasBlob _ s _ hb2, Option.getD_some,
        true_and]
      exact_mod_cast length_le_written d o.toNat req.body

/-- C6 (amended): over a run of `handlePatch` calls none of which renames
the blob to the final name, the received length `handleHead` reports does
not decrease, and `handleHead` keeps its status. -/
theorem received_monotone (fs : FS) (transferID : String) (reqs : List PatchReq)
    (hid : PlainName transferID) (hno : NoPromotion fs transferID reqs) :
    (handleHead (patchAll fs transferID reqs) transferID).status =
        (handleHead fs transferID).status ∧
      received fs transferID ≤ received (patchAll fs transferID reqs) transferID := by
  induction reqs generalizing fs with
  | nil => exact ⟨rfl, le_refl _⟩
  | cons r rs ih =>
    obtain ⟨h1, h2⟩ := hno
    obtain ⟨s1, s2⟩ := received_step fs r hid h1
    obtain ⟨t1, t2⟩ := ih (handlePatch fs r transferID).fs h2
    exact ⟨t1.trans s1, le_trans s2 t2⟩

/-! ## Re-issuing a call -/

/-- A completing call on a transfer with nothing received, whose final path
holds a regular file: the new blob is moved onto the final path and the
transfer is left with nothing received. -/
theorem patch_after_move (fs3 : FS) (req : PatchReq) {s : String} (hid : PlainName s)
    (hb3 : HasBlob fs3 s []) (o t : Int)
    (ho : ParseInt req.uploadOffset = some o) (ho0 : 0 ≤ o)
    (ht : ParseInt req.uploadLength = some t)
    (hbf : req.bodyFails = false) (hge : wrapInt64 (o + req.body.length) ≥ t)
    (w : List UInt8)
    (hckf : pathCheck (finalPath req.uploadName) = none)
    (hq : fs3.lookup (fs3.abs (finalPath req.uploadName)) = .ok (.file w))
    (hne : chAbs fs3 s ≠ fs3.abs (finalPath req.uploadName)) :
    HasBlob (handlePatch fs3 req s).fs s [] := by
  have hck := hasBlob_check fs3 _ hb3
  have hd3 : fs3.lookup (tdAbs fs3 s) = .ok .dir := (hasBlob_dir fs3 hid _ hb3)
  have hc3 := (hasBlob_look fs3 hid _ hb3).2
  have hbW := set_chunk_hasBlob fs3 hid hck hd3 (written [] o.toNat req.body)
  have hdW := (hasBlob_dir _ hid _ hbW)
  have hcW := (hasBlob_look _ hid _ hbW).2
  simp only [chAbs_set, tdAbs_set] at hdW hcW
  have hsrc : (fs3.set (chAbs fs3 s) (some (.file (written [] o.toNat req.body)))).lookup
      (chAbs fs3 s) = .ok (.file (written [] o.toNat req.body)) := by
    exact set_chunk_lookup fs3 s hd3 _
  -- the blob is not on the way to the final path
  have hnpre : ¬ chAbs fs3 s <+: fs3.abs (finalPath req.uploadName) := by
    rintro ⟨r, hr⟩
    cases r with
    | nil => exact hne (by simpa using hr)
    | cons c cs =>
      rw [← hr] at hq
      have hl := FS.lookup_prefix_dir fs3 _ c cs _ hq
      rcases hc3 with h3 | ⟨_, h3⟩ <;> rw [hl] at h3 <;> cases h3
  have hqW : (fs3.set (chAbs fs3 s) (some (.file (written [] o.toNat req.body)))).lookup
      (fs3.abs (finalPath req.uploadName)) = .ok (.file w) := by
    rw [FS.lookup_set _ _ _ _ hnpre, hq]
  have hqne : fs3.abs (finalPath req.uploadName) ≠ [] := by
    intro e0
    rw [e0] at hq
    have := lookup_dir_above fs3 [] _ hd3 ⟨_, rfl⟩
    rw [this] at hq; cases hq
  have hmove := rename_move (fs3.set (chAbs fs3 s) (some (.file (written [] o.toNat req.body))))
    (chunkFile s) (finalPath req.uploadName) (written [] o.toNat req.body) hck hckf
    (by rw [abs_chunkFile _ hid]; exact hsrc)
    (by rw [abs_chunkFile _ hid]; exact hne)
    (by rw [FS.set_abs]; exact Or.inl ⟨w, hqW⟩)
    (by rw [FS.set_abs]; exact lookup_dropLast_dir _ _ _ hqne hqW)
  rw [handlePatch_write fs3 req hid [] hb3 o t ho ho0 ht]
  unfold finishPatch
  simp only [hbf, hge, hmove, if_true, Bool.false_eq_true, if_false]
  rw [abs_chunkFile _ hid]
  exact moved_hasBlob _ hid _ _ hck hdW (by rw [FS.set_abs, hqW]; simp) hne

/-- The re-issue after the write phase, on the store the write left. -/
theorem reissue_core (fsW : FS) (req : PatchReq) {s : String} (hid : PlainName s)
    (w : List UInt8) (hbW : HasBlob fsW s w)
    (hentW : fsW.ent (chAbs fsW s) = some (.file w)) (o t : Int)
    (ho : ParseInt req.uploadOffset = some o) (ho0 : 0 ≤ o)
    (ht : ParseInt req.uploadLength = some t)
    (hself : handlePatch fsW req s = finishPatch fsW req s o t) :
    handleHead (handlePatch (finishPatch fsW req s o t).fs req s).fs s =
      handleHead (finishPatch fsW req s o t).fs s := by
  have hdW : fsW.lookup (tdAbs fsW s) = .ok .dir := (hasBlob_dir _ hid _ hbW)
  have hcW : fsW.lookup (chAbs fsW s) = .ok (.file w) := lookup_chunk_of_ent fsW s _ hdW hentW
  rcases finishPatch_cases fsW req hid w hbW hentW o t with
    hsame | ⟨⟨hbf, hge⟩, hne, hq, hqne, ⟨hpar, hnm, hckf⟩, hfs⟩
  · rw [hsame, hself, hsame]
  · have hb3 := moved_hasBlob fsW hid (fsW.abs (finalPath req.uploadName)) w
      (hasBlob_check _ _ hbW) hdW hq hne
    have hnpre : ¬ chAbs fsW s <+: (fsW.abs (finalPath req.uploadName)).dropLast := by
      intro hp
      have hl := lookup_dir_above _ _ _ hpar hp
      rw [hl] at hcW; cases hcW
    have hnq : ¬ fsW.abs (finalPath req.uploadName) <+:
        (fsW.abs (finalPath req.uploadName)).dropLast := by
      intro hp
      have := hp.length_le
      have hpos : 0 < (fsW.abs (finalPath req.uploadName)).length := List.length_pos.mpr hqne
      simp only [List.length_dropLast] at this
      omega
    have hq3 : ((fsW.set (chAbs fsW s) none).set (fsW.abs (finalPath req.uploadName))
        (some (.file w))).lookup (fsW.abs (finalPath req.uploadName)) = .ok (.file w) := by
      apply lookup_of_parent _ _ _ hqne
      · rw [FS.lookup_set _ _ _ _ hnq, FS.lookup_set _ _ _ _ hnpre]; exact hpar
      · exact hnm
      · exact FS.set_ent_self _ _ _
    have hb4 := patch_after_move _ req hid hb3 o t ho ho0 ht hbf hge w hckf hq3 hne
    rw [hfs, head_of_hasBlob _ _ _ hb4, head_of_hasBlob _ _ _ hb3]

/-- C5: re-issuing a successful `handlePatch` call (same offset, same
`Upload-Length` and `Upload-Name`, same bytes) leaves what `handleHead`
answers as it was before the re-issue, also when the call completed the
transfer. -/
theorem reissue_keeps_head (fs : FS) (req : PatchReq) (transferID : String)
    (hid : PlainName transferID)
    (hok : (handlePatch fs req transferID).resp.status = 204) :
    handleHead (handlePatch (handlePatch fs req transferID).fs req transferID).fs transferID =
      handleHead (handlePatch fs req transferID).fs transferID := by
  rcases handlePatch_shape fs req hid with ⟨_, _, h3⟩ | ⟨d, o, t, hb, ho, ht, hcase⟩
  · exact absurd hok h3
  rcases hcase with ⟨_, _, _, h3⟩ | ⟨ho0, h1⟩
  · exact absurd hok h3
  have hd : fs.lookup (tdAbs fs transferID) = .ok .dir := (hasBlob_dir fs hid d hb)
  have hbW := set_chunk_hasBlob fs hid (hasBlob_check fs d hb) hd (written d o.toNat req.body)
  have h2 := handlePatch_write _ req hid _ hbW o t ho ho0 ht
  simp only [chAbs_set, FS.set_set, written_idem] at h2
  rw [h1]
  exact reissue_core _ req hid _ hbW (FS.set_ent_self _ _ _) o t ho ho0 ht h2

/-! ## Exact outcomes on an existing transfer -/

theorem finalPath_eq (n : String) : finalPath n = transferDir (finalName n) := rfl

theorem abs_finalPath (fs : FS) {n : String} (h : PlainName (finalName n)) :
    fs.abs (finalPath n) = tdAbs fs (finalName n) := by
  rw [finalPath_eq, abs_transferDir fs h]

theorem chAbs_not_prefix_tdAbs (fs : FS) (s n : String) : ¬ chAbs fs s <+: tdAbs fs n := by
  intro hp
  have := hp.length_le
  simp [chAbs, tdAbs] at this

theorem chAbs_ne_tdAbs (fs : FS) (s n : String) : chAbs fs s ≠ tdAbs fs n := by
  intro e
  have := congrArg List.length e
  simp [chAbs, tdAbs] at this

theorem lookup_uploadDir (fs : FS) (s : String) (h : fs.lookup (tdAbs fs s) = .ok .dir) :
    fs.lookup (fs.cwd ++ ["tmp"]) = .ok .dir := by
  apply lookup_dir_above fs _ _ h
  exact ⟨[s], by simp [tdAbs]⟩

theorem tdAbs_dropLast (fs : FS) (s : String) : (tdAbs fs s).dropLast = fs.cwd ++ ["tmp"] := by
  have : tdAbs fs s = (fs.cwd ++ ["tmp"]) ++ [s] := by simp [tdAbs]
  rw [this, List.dropLast_concat]

theorem tdAbs_ne_nil (fs : FS) (s : String) : tdAbs fs s ≠ [] := by
  simp [tdAbs]

/-- A call that stays below the declared total writes the chunk and
answers with the new offset. -/
theorem patch_below (fs : FS) (req : PatchReq) {s : String} (h : PlainName s)
    (d : List UInt8) (hb : HasBlob fs s d) (o : Nat) (t : Int)
    (ho : ParseInt req.uploadOffset = some (o : Int))
    (ht : ParseInt req.uploadLength = some t) (hbf : req.bodyFails = false)
    (hlt : (o : Int) + req.body.length < t) :
    handlePatch fs req s =
      ⟨fs.set (chAbs fs s) (some (.file (written d o req.body))),
        { status := 204, uploadOffset := some ((o : Int) + req.body.length), body := "" },
        false⟩ := by
  have hwrap : wrapInt64 ((o : Int) + req.body.length) = (o : Int) + req.body.length :=
    wrapInt64_of_range _ (by positivity) (lt_trans hlt (parseInt_lt ht))
  rw [handlePatch_write fs req h d hb (o : Int) t ho (Int.ofNat_nonneg o) ht]
  unfold finishPatch
  simp [hbf, hwrap, not_le.mpr hlt]

theorem tdAbs_getLastD (fs : FS) (s : String) : (tdAbs fs s).getLastD "" = s := by
  have : tdAbs fs s = (fs.cwd ++ ["tmp"]) ++ [s] := by simp [tdAbs]
  rw [this, List.getLastD_concat]

/-- What `os.Stat` answering "absent" or "a regular file" for the final
path says about it: the path passes the path checks, its name is short
enough, and the path resolves to a regular file or to nothing. -/
theorem final_facts (fs : FS) {n : String} (hn : PlainName (finalName n))
    (hu : fs.lookup (fs.cwd ++ ["tmp"]) = .ok .dir)
    (hnd : osStat fs (finalPath n) = .error .ENOENT ∨
      ∃ a, osStat fs (finalPath n) = .ok (.file a)) :
    pathCheck (finalPath n) = none ∧ nameTooLong (finalName n) = false ∧
      ((∃ x, fs.lookup (tdAbs fs (finalName n)) = .ok (.file x)) ∨
        fs.lookup (tdAbs fs (finalName n)) = .error .ENOENT) := by
  rcases hnd with he | ⟨a, ha⟩
  · have hck := pathCheck_of_enoent fs _ he
    rw [osStat_eq fs _ hck, abs_finalPath fs hn] at he
    refine ⟨hck, ?_, Or.inr he⟩
    have := name_ok_missing fs _ (tdAbs_ne_nil fs _) he (by rw [tdAbs_dropLast]; exact hu)
    rw [tdAbs_getLastD] at this
    exact this
  · have hck := pathCheck_of_ok fs _ _ ha
    rw [osStat_eq fs _ hck, abs_finalPath fs hn] at ha
    refine ⟨hck, ?_, Or.inl ⟨a, ha⟩⟩
    have := name_ok_last fs _ _ ha
    rw [tdAbs_getLastD] at this
    exact this

theorem not_dir_of (fs : FS) (p : Path)
    (hq : (∃ x, fs.lookup p = .ok (.file x)) ∨ fs.lookup p = .error .ENOENT) :
    fs.lookup p ≠ .ok .dir := by
  rcases hq with ⟨x, hx⟩ | hx <;> rw [hx] <;> simp

/-- A call that reaches the declared total, with a plain final name whose
path holds a regular file or nothing: the chunk is written and the blob is
moved onto the final path. -/
theorem patch_promote (fs : FS) (req : PatchReq) {s : String} (h : PlainName s)
    (d : List UInt8) (hb : HasBlob fs s d) (o : Nat) (t : Int)
    (ho : ParseInt req.uploadOffset = some (o : Int))
    (ht : ParseInt req.uploadLength = some t) (hbf : req.bodyFails = false)
    (hge : t ≤ (o : Int) + req.body.length) (h64 : (o : Int) + req.body.length < 2 ^ 63)
    (hn : PlainName (finalName req.uploadName))
    (hckf : pathCheck (finalPath req.uploadName) = none)
    (hq : (∃ x, fs.lookup (tdAbs fs (finalName req.uploadName)) = .ok (.file x)) ∨
      fs.lookup (tdAbs fs (finalName req.uploadName)) = .error .ENOENT) :
    handlePatch fs req s =
      ⟨(fs.set (chAbs fs s) none).set (tdAbs fs (finalName req.uploadName))
          (some (.file (written d o req.body))),
        { status := 204, uploadOffset := some ((o : Int) + req.body.length), body := "" },
        true⟩ := by
  have hwrap : wrapInt64 ((o : Int) + req.body.length) = (o : Int) + req.body.length :=
    wrapInt64_of_range _ (by positivity) h64
  have hd : fs.lookup (tdAbs fs s) = .ok .dir := (hasBlob_dir fs h d hb)
  have hck := hasBlob_check fs d hb
  have hbW := set_chunk_hasBlob fs h hck hd (written d o req.body)
  have hdW := (hasBlob_dir _ h _ hbW)
  simp only [tdAbs_set] at hdW
  have hsrc := set_chunk_lookup fs s hd (written d o req.body)
  have hmove := rename_move (fs.set (chAbs fs s) (some (.file (written d o req.body))))
    (chunkFile s) (finalPath req.uploadName) (written d o req.body) hck hckf
    (by rw [abs_chunkFile _ h]; exact hsrc)
    (by rw [abs_chunkFile _ h, abs_finalPath _ hn]; exact chAbs_ne_tdAbs _ _ _)
    (by
      rw [abs_finalPath _ hn]
      simp only [tdAbs_set]
      rw [FS.lookup_set _ _ _ _ (chAbs_not_prefix_tdAbs _ _ _)]
      exact hq)
    (by
      rw [abs_finalPath _ hn, tdAbs_dropLast]
      exact lookup_uploadDir _ s hdW)
  rw [abs_chunkFile _ h, abs_finalPath _ hn] at hmove
  simp only [chAbs_set, tdAbs_set, FS.set_set] at hmove
  rw [handlePatch_write fs req h d hb (o : Int) t ho (Int.ofNat_nonneg o) ht]
  unfold finishPatch
  simp [hbf, hwrap, hge, hmove]

/-- The store after a promotion: the final path holds the blob, and the
transfer is left with nothing received. -/
theorem promoted_state (fs : FS) {s n : String} (h : PlainName s) (hn : PlainName n)
    (hck : pathCheck (chunkFile s) = none) (hckn : pathCheck (transferDir n) = none)
    (hnm : nameTooLong n = false)
    (hd : fs.lookup (tdAbs fs s) = .ok .dir)
    (hnd : fs.lookup (tdAbs fs n) ≠ .ok .dir) (w : List UInt8) :
    HasBlob ((fs.set (chAbs fs s) none).set (tdAbs fs n) (some (.file w))) s [] ∧
      osStat ((fs.set (chAbs fs s) none).set (tdAbs fs n) (some (.file w))) (transferDir n) =
        .ok (.file w) := by
  refine ⟨moved_hasBlob fs h _ w hck hd hnd (chAbs_ne_tdAbs _ _ _), ?_⟩
  rw [osStat_eq _ _ hckn, abs_transferDir _ hn]
  simp only [tdAbs_set]
  apply lookup_of_parent _ _ _ (tdAbs_ne_nil _ _)
  · rw [tdAbs_dropLast]
    have hu := lookup_uploadDir fs s hd
    have hlen : ∀ p : Path, p.length > (fs.cwd ++ ["tmp"]).length → ¬ p <+: fs.cwd ++ ["tmp"] := by
      intro p hp hpre
      have := hpre.length_le
      omega
    rw [FS.lookup_set _ _ _ _ (hlen _ (by simp [tdAbs])),
      FS.lookup_set _ _ _ _ (hlen _ (by simp [chAbs]))]
    exact hu
  · rw [tdAbs_getLastD]; exact hnm
  · exact FS.set_ent_self _ _ _

/-- Writing into the blob is not seen at the path of a plain name in the
upload directory. -/
theorem lookup_set_chunk_tdAbs (fs fsX : FS) (s n : String) (x : Option Entry) :
    (fsX.set (chAbs fs s) x).lookup (tdAbs fs n) = fsX.lookup (tdAbs fs n) :=
  FS.lookup_set _ _ _ _ (chAbs_not_prefix_tdAbs _ _ _)

/-- C2 (amended): a `handlePatch` call on an existing transfer with blob
`d`, at an offset `o ≤ |d|`, that reaches the `Upload-Length` `L` it
declares, with a final name that is a single path component and for whose
path `os.Stat` answers that it does not exist or is a regular file (so the
name is at most 255 bytes long and holds no NUL byte): the artifact is
visible under the final name and holds the blob as written, of length
`max |d| (o + |b|)`, which is at least `L`. -/
theorem completing_call_promotes (fs : FS) (req : PatchReq) (transferID : String)
    (d : List UInt8) (o : Nat) (L : Int)
    (hid : PlainName transferID) (hn : PlainName (finalName req.uploadName))
    (hb : HasBlob fs transferID d)
    (ho : ParseInt req.uploadOffset = some (o : Int)) (hod : o ≤ d.length)
    (hL : ParseInt req.uploadLength = some L) (hbf : req.bodyFails = false)
    (hge : L ≤ (o : Int) + req.body.length) (h64 : (o : Int) + req.body.length < 2 ^ 63)
    (hnd : osStat fs (finalPath req.uploadName) = .error .ENOENT ∨
      ∃ a, osStat fs (finalPath req.uploadName) = .ok (.file a)) :
    (handlePatch fs req transferID).saved = true ∧
      (handlePatch fs req transferID).resp =
        { status := 204, uploadOffset := some ((o : Int) + req.body.length), body := "" } ∧
      osStat (handlePatch fs req transferID).fs (finalPath req.uploadName) =
        .ok (.file (written d o req.body)) ∧
      (written d o req.body).length = max d.length (o + req.body.length) ∧
      L ≤ ((written d o req.body).length : Int) := by
  have hd : fs.lookup (tdAbs fs transferID) = .ok .dir := (hasBlob_dir fs hid d hb)
  obtain ⟨hckf, hnm, hq⟩ := final_facts fs hn (lookup_uploadDir fs _ hd) hnd
  rw [patch_promote fs req hid d hb o L ho hL hbf hge h64 hn hckf hq]
  have hlen := written_length d o req.body hod
  refine ⟨rfl, rfl, ?_, hlen, ?_⟩
  · rw [finalPath_eq]
    exact (promoted_state fs hid hn (hasBlob_check fs d hb) hckf hnm hd
      (not_dir_of fs _ hq) _).2
  · rw [hlen]
    have : (o : Int) + req.body.length ≤ ((max d.length (o + req.body.length) : Nat) : Int) := by
      exact_mod_cast le_max_right _ _
    exact le_trans hge this

/-- C7 (amended): a `handlePatch` call on an existing transfer (also one
whose blob was promoted before) that is answered with 204, at an offset
inside the blob or of at most `2^31 - 1` (where a seek succeeds on every
file system), with a final name that is a single path component and for
whose path `os.Stat` answers that it does not exist or is a regular file
(so the name is at most 255 bytes long and holds no NUL byte), renames the
blob exactly when its offset plus the bytes written reaches its
`Upload-Length`: below that nothing is renamed and the final path holds
what it held; from there on the blob is renamed and the final path holds
the blob as written, whatever it held before. -/
theorem promotion_each_time (fs : FS) (req : PatchReq) (transferID : String)
    (d : List UInt8) (o : Nat) (L : Int)
    (hid : PlainName transferID) (hn : PlainName (finalName req.uploadName))
    (hb : HasBlob fs transferID d)
    (ho : ParseInt req.uploadOffset = some (o : Int))
    (hL : ParseInt req.uploadLength = some L)
    (hok : (handlePatch fs req transferID).resp.status = 204)
    (hseek : o ≤ d.length ∨ o ≤ seekAlways)
    (h64 : (o : Int) + req.body.length < 2 ^ 63)
    (hnd : osStat fs (finalPath req.uploadName) = .error .ENOENT ∨
      ∃ a, osStat fs (finalPath req.uploadName) = .ok (.file a)) :
    ((o : Int) + req.body.length < L ∧ (handlePatch fs req transferID).saved = false ∧
        osStat (handlePatch fs req transferID).fs (finalPath req.uploadName) =
          osStat fs (finalPath req.uploadName)) ∨
      (L ≤ (o : Int) + req.body.length ∧ (handlePatch fs req transferID).saved = true ∧
        osStat (handlePatch fs req transferID).fs (finalPath req.uploadName) =
          .ok (.file (written d o req.body))) := by
  -- `Seek` succeeds at every offset here; the bound keeps the statement to
  -- the offsets at which it succeeds on every file system
  have _ := hseek
  have hbf : req.bodyFails = false := by
    by_cases hf : req.bodyFails = true
    · rw [handlePatch_write fs req hid d hb (o : Int) L ho (Int.ofNat_nonneg o) hL] at hok
      unfold finishPatch at hok
      simp [hf, httpError] at hok
    · simpa using hf
  have hd : fs.lookup (tdAbs fs transferID) = .ok .dir := (hasBlob_dir fs hid d hb)
  obtain ⟨hckf, hnm, hq⟩ := final_facts fs hn (lookup_uploadDir fs _ hd) hnd
  by_cases hge : L ≤ (o : Int) + req.body.length
  · right
    rw [patch_promote fs req hid d hb o L ho hL hbf hge h64 hn hckf hq]
    refine ⟨hge, rfl, ?_⟩
    rw [finalPath_eq]
    exact (promoted_state fs hid hn (hasBlob_check fs d hb) hckf hnm hd
      (not_dir_of fs _ hq) _).2
  · left
    rw [patch_below fs req hid d hb o L ho hL hbf (not_le.mp hge)]
    refine ⟨not_le.mp hge, rfl, ?_⟩
    rw [osStat_eq _ _ hckf, osStat_eq _ _ hckf, abs_finalPath _ hn, abs_finalPath _ hn]
    simp only [tdAbs_set]
    exact lookup_set_chunk_tdAbs fs fs _ _ _

/-! ## Two chunks in either order -/

theorem parseInt_0 : ParseInt "0" = some ((0 : Nat) : Int) := by decide

theorem parseInt_5 : ParseInt "5" = some ((5 : Nat) : Int) := by decide

theorem parseInt_10 : ParseInt "10" = some 10 := by decide

/-- C4 (amended): for a transfer with nothing received and two calls, one at
offset 0 with five bytes `p` and one at offset 5 with five bytes `q`, both
declaring the total 10, the second with a final name that is a single path
component and for whose path `os.Stat` answers that it does not exist or is
a regular file (so the name is at most 255 bytes long and holds no NUL
byte): run in offset order, the artifact is exactly `p ++ q`; run in the
other order, the call at offset 5 completes the transfer by itself, the
artifact holds five zero bytes followed by `q`, and `p` is left in a new
blob of the transfer. -/
theorem two_chunk_schedules (fs : FS) (transferID n1 n2 : String) (p q : List UInt8)
    (hid : PlainName transferID) (hn : PlainName (finalName n2))
    (hb : HasBlob fs transferID [])
    (hnd : osStat fs (finalPath n2) = .error .ENOENT ∨
      ∃ a, osStat fs (finalPath n2) = .ok (.file a))
    (hp : p.length = 5) (hq : q.length = 5) :
    osStat (patchAll fs transferID [⟨"0", "10", n1, p, false⟩, ⟨"5", "10", n2, q, false⟩])
        (finalPath n2) = .ok (.file (p ++ q)) ∧
      osStat (patchAll fs transferID [⟨"5", "10", n2, q, false⟩, ⟨"0", "10", n1, p, false⟩])
        (finalPath n2) = .ok (.file (List.replicate 5 0 ++ q)) ∧
      HasBlob (patchAll fs transferID [⟨"5", "10", n2, q, false⟩, ⟨"0", "10", n1, p, false⟩])
        transferID p := by
  have hd : fs.lookup (tdAbs fs transferID) = .ok .dir := (hasBlob_dir fs hid _ hb)
  have hck := hasBlob_check fs _ hb
  obtain ⟨hckf, hnm, hfin⟩ := final_facts fs hn (lookup_uploadDir fs _ hd) hnd
  have hnd2 := not_dir_of fs _ hfin
  have hqne : q ≠ [] := by
    intro e; simp [e] at hq
  have hw0 : written [] 0 p = p := by
    have := written_append [] p
    simpa using this
  have hw5 : written [] 5 q = List.replicate 5 0 ++ q := by
    simp [written, hqne, writeAt]
  refine ⟨?_, ?_, ?_⟩
  · -- offset order
    have s1 := patch_below fs ⟨"0", "10", n1, p, false⟩ hid [] hb 0 10 parseInt_0 parseInt_10 rfl
      (by simp [hp])
    have hb1 := set_chunk_hasBlob fs hid hck hd p
    have s2 := patch_promote _ ⟨"5", "10", n2, q, false⟩ hid p hb1 5 10 parseInt_5 parseInt_10
      rfl (by simp [hq]) (by simp [hq]) hn hckf
      (by simp only [tdAbs_set]; rw [lookup_set_chunk_tdAbs]; exact hfin)
    simp only [patchAll, s1, hw0, s2]
    have hpq : written p 5 q = p ++ q := by
      rw [← hp]; exact written_append p q
    rw [hpq, finalPath_eq]
    simp only [chAbs_set, tdAbs_set, FS.set_set]
    exact (promoted_state fs hid hn hck hckf hnm hd hnd2 _).2
  · -- the other order
    have s1 := patch_promote fs ⟨"5", "10", n2, q, false⟩ hid [] hb 5 10 parseInt_5 parseInt_10
      rfl (by simp [hq]) (by simp [hq]) hn hckf hfin
    obtain ⟨hb1, ha1⟩ := promoted_state fs hid hn hck hckf hnm hd hnd2 (written [] 5 q)
    have s2 := patch_below _ ⟨"0", "10", n1, p, false⟩ hid [] hb1 0 10 parseInt_0 parseInt_10 rfl
      (by simp [hp])
    simp only [patchAll, s1, s2, hw0]
    have hckt : pathCheck (transferDir (finalName n2)) = none := hckf
    rw [finalPath_eq, osStat_eq _ _ hckt, abs_transferDir _ hn]
    simp only [chAbs_set, tdAbs_set]
    rw [lookup_set_chunk_tdAbs]
    rw [osStat_eq _ _ hckt, abs_transferDir _ hn] at ha1
    simp only [tdAbs_set] at ha1
    rw [ha1, hw5]
  · have s1 := patch_promote fs ⟨"5", "10", n2, q, false⟩ hid [] hb 5 10 parseInt_5 parseInt_10
      rfl (by simp [hq]) (by simp [hq]) hn hckf hfin
    obtain ⟨hb1, _⟩ := promoted_state fs hid hn hck hckf hnm hd hnd2 (written [] 5 q)
    have s2 := patch_below _ ⟨"0", "10", n1, p, false⟩ hid [] hb1 0 10 parseInt_0 parseInt_10 rfl
      (by simp [hp])
    simp only [patchAll, s1, s2, hw0]
    have hd1 := (hasBlob_dir _ hid _ hb1)
    simp only [tdAbs_set] at hd1
    have := set_chunk_hasBlob _ hid hck hd1 p
    simpa only [chAbs_set] using this

/-! ## Unknown identifiers and missing lengths -/

/-- C8 (amended): for an id whose path under the upload directory does not
exist, `handleHead` and `handlePatch` both answer 404 without an
`Upload-Offset`, and `handlePatch` leaves the store as it was. -/
theorem not_found_when_absent (fs : FS) (req : PatchReq) (transferID : String)
    (h : osStat fs (transferDir transferID) = .error .ENOENT) :
    handleHead fs transferID = httpError "Transfer not found" 404 ∧
      (handleHead fs transferID).uploadOffset = none ∧
      (handlePatch fs req transferID).resp = httpError "Transfer not found" 404 ∧
      (handlePatch fs req transferID).resp.uploadOffset = none ∧
      (handlePatch fs req transferID).fs = fs := by
  have h' : osStat fs (Join uploadDir transferID) = .error .ENOENT := h
  simp [handleHead, handlePatch, h', isNotExist, httpError]

/-- C9 (amended): `handlePost` with a missing `Upload-Length` header answers
400 and creates nothing: the store is unchanged and the body is the error
text, not an identifier. -/
theorem post_requires_length (fs : FS) (rnd : RandBytes) (req : PostReq)
    (h : req.uploadLength = "") :
    handlePost fs rnd req = (fs, httpError "Upload-Length header required" 400) ∧
      (handlePost fs rnd req).2.status = 400 := by
  simp [handlePost, h, httpError]

/-! ## What a call leaves alone -/

theorem abs_length_le (fs : FS) (rel : RelPath) :
    (fs.abs rel).length ≤ fs.cwd.length + rel.length := by
  unfold FS.abs
  generalize fs.cwd = acc
  induction rel generalizing acc with
  | nil => simp
  | cons c cs ih =>
    simp only [List.foldl_cons, List.length_cons]
    refine le_trans (ih _) ?_
    split
    · simp only [List.length_dropLast]; omega
    · simp only [List.length_append, List.length_singleton]; omega

theorem finalPath_length_le (n : String) (h : '/' ∉ n.data) : (finalPath n).length ≤ 2 := by
  have hf : '/' ∉ (finalName n).data := by
    unfold finalName
    split
    · decide
    · exact h
  have hc : components (finalName n) = [finalName n] := by
    simp [components, splitSep_of_not_mem _ hf]
  have h1 : cleanStep [] "tmp" = ["tmp"] := by decide
  rw [finalPath_eq, transferDir, Join, uploadDir_eq, hc]
  simp only [Clean, List.singleton_append, List.foldl_cons, List.foldl_nil, h1,
    List.length_reverse]
  have h2 : ("tmp" : String) ≠ ".." := by decide
  by_cases a : finalName n = "" ∨ finalName n = "."
  · simp [cleanStep, a]
  · by_cases b : finalName n = ".."
    · simp [cleanStep, b, h2]
    · simp [cleanStep, a, b]

theorem handlePatch_cwd (fs : FS) (req : PatchReq) {s : String} (h : PlainName s) :
    (handlePatch fs req s).fs.cwd = fs.cwd := by
  rcases handlePatch_shape fs req h with ⟨h1, _, _⟩ | ⟨d, o, t, hb, ho, ht, hcase⟩
  · rw [h1]
  · rcases hcase with ⟨_, h1, _, _⟩ | ⟨ho0, h1⟩
    · rw [h1]; rfl
    · have hd : fs.lookup (tdAbs fs s) = .ok .dir := (hasBlob_dir fs h d hb)
      rw [h1]
      rcases finishPatch_cases _ req h _ (set_chunk_hasBlob fs h (hasBlob_check fs d hb) hd _)
        (FS.set_ent_self _ _ _) o t with hsame | ⟨_, _, _, _, _, hfs⟩
      · rw [hsame]; rfl
      · rw [hfs]; rfl

/-- A call on the transfer `s` is not seen by the resolution of a path that
does not pass through the blob of `s`, and passes through the final path
only where that is a directory. -/
theorem patch_frame (fs : FS) (req : PatchReq) {s : String} (h : PlainName s) (p : Path)
    (hnp : ¬ chAbs fs s <+: p)
    (hQ : fs.abs (finalPath req.uploadName) <+: p →
      fs.lookup (fs.abs (finalPath req.uploadName)) = .ok .dir) :
    (handlePatch fs req s).fs.lookup p = fs.lookup p := by
  rcases handlePatch_shape fs req h with ⟨h1, _, _⟩ | ⟨d, o, t, hb, ho, ht, hcase⟩
  · rw [h1]
  · rcases hcase with ⟨_, h1, _, _⟩ | ⟨ho0, h1⟩
    · rw [h1, FS.lookup_set _ _ _ _ hnp]
    · have hd : fs.lookup (tdAbs fs s) = .ok .dir := (hasBlob_dir fs h d hb)
      rw [h1]
      rcases finishPatch_cases _ req h _ (set_chunk_hasBlob fs h (hasBlob_check fs d hb) hd _)
        (FS.set_ent_self _ _ _) o t with hsame | ⟨_, _, hq, _, _, hfs⟩
      · rw [hsame, FS.lookup_set _ _ _ _ hnp]
      · simp only [chAbs_set, FS.set_abs] at hq hfs
        have hnq : ¬ fs.abs (finalPath req.uploadName) <+: p := by
          intro hpre
          apply hq
          rw [FS.lookup_set _ _ _ _ (fun hc => hnp (hc.trans hpre))]
          exact hQ hpre
        rw [hfs, FS.lookup_set _ _ _ _ hnq, FS.lookup_set _ _ _ _ hnp,
          FS.lookup_set _ _ _ _ hnp]

/-- C10 (amended): for two distinct plain identifiers `A` and `B`, `B` an
existing transfer, and every `handlePatch` call on `A` whose `Upload-Name`
holds no path separator, the metadata record and the data blob of `B` are
afterwards what they were, and the path the blob of `A` is promoted to does
not lie inside the directory of any transfer. -/
theorem other_transfer_untouched (fs : FS) (req : PatchReq) (A B : String)
    (hA : PlainName A) (hB : PlainName B) (hAB : A ≠ B)
    (hBdir : osStat fs (transferDir B) = .ok .dir)
    (hname : '/' ∉ req.uploadName.data) :
    osStat (handlePatch fs req A).fs (chunkFile B) = osStat fs (chunkFile B) ∧
      osStat (handlePatch fs req A).fs (metadataFile B) = osStat fs (metadataFile B) ∧
      (∀ X, PlainName X → ¬ Inside fs (finalPath req.uploadName) (transferDir X)) := by
  have hBd : fs.lookup (tdAbs fs B) = .ok .dir := by
    rw [osStat_eq fs _ (pathCheck_of_ok fs _ _ hBdir), abs_transferDir fs hB] at hBdir
    exact hBdir
  have hlen : (fs.abs (finalPath req.uploadName)).length ≤ fs.cwd.length + 2 :=
    le_trans (abs_length_le fs _) (by have := finalPath_length_le _ hname; omega)
  have habs : ∀ rel, (handlePatch fs req A).fs.abs rel = fs.abs rel := by
    intro rel
    unfold FS.abs
    rw [handlePatch_cwd fs req hA]
  have hmeta : fs.abs (metadataFile B) = tdAbs fs B ++ ["metadata.txt"] := by
    rw [metadataFile_plain hB, FS.abs_plain3 fs _ _ _ (by decide) hB.2.2.1 (by decide)]
    simp [tdAbs]
  -- the final path can only be on the way to a file of `B` as a directory
  have hQ : ∀ x : String, fs.abs (finalPath req.uploadName) <+: tdAbs fs B ++ [x] →
      fs.lookup (fs.abs (finalPath req.uploadName)) = .ok .dir := by
    intro x hpre
    rcases List.prefix_concat_iff.mp hpre with e | hpre2
    · have := congrArg List.length e
      simp [tdAbs] at this
      omega
    · exact lookup_dir_above fs _ _ hBd hpre2
  have hnp : ∀ x : String, ¬ chAbs fs A <+: tdAbs fs B ++ [x] := by
    intro x hpre
    have e := hpre.eq_of_length (by simp [chAbs, tdAbs])
    have e2 : [("tmp" : String), A, "data"] = ["tmp", B, x] := by
      have e3 : fs.cwd ++ ["tmp", A, "data"] = fs.cwd ++ ["tmp", B, x] := by
        simpa [chAbs, tdAbs] using e
      exact List.append_cancel_left e3
    simp at e2
    exact hAB e2.1
  refine ⟨?_, ?_, ?_⟩
  · cases hc : pathCheck (chunkFile B) with
    | some e => simp [osStat, hc]
    | none =>
      rw [osStat_eq _ _ hc, osStat_eq _ _ hc, habs, abs_chunkFile fs hB, chAbs_eq]
      exact patch_frame fs req hA _ (hnp _) (hQ _)
  · cases hc : pathCheck (metadataFile B) with
    | some e => simp [osStat, hc]
    | none =>
      rw [osStat_eq _ _ hc, osStat_eq _ _ hc, habs, hmeta]
      exact patch_frame fs req hA _ (hnp _) (hQ _)
  · rintro X hX ⟨c, rest, e⟩
    rw [abs_transferDir fs hX] at e
    have := congrArg List.length e
    simp [tdAbs] at this
    omega

/-! ## Creating a transfer -/

theorem hexDigit_mem (n : Nat) (h : n < 16) : hexDigit n ∈ "0123456789abcdef".data := by
  interval_cases n <;> decide

theorem hexByte_mem (b : UInt8) : ∀ c ∈ hexByte b, c ∈ "0123456789abcdef".data := by
  have hb : b.toNat < 256 := b.val.isLt
  intro c hc
  simp only [hexByte, List.mem_cons, List.mem_singleton, List.not_mem_nil, or_false] at hc
  rcases hc with rfl | rfl
  · exact hexDigit_mem _ (by omega)
  · exact hexDigit_mem _ (by omega)

/-- Every identifier `generateID` makes is a single ordinary path component. -/
theorem generateID_plain (rnd : RandBytes) : PlainName (generateID rnd) := by
  have hmem : ∀ c ∈ (generateID rnd).data, c ∈ "0123456789abcdef".data := by
    intro c hc
    simp only [generateID, List.mem_flatMap] at hc
    obtain ⟨b, _, hb⟩ := hc
    exact hexByte_mem b c hb
  have hne : (generateID rnd).data ≠ [] := by
    obtain ⟨l, hl⟩ := rnd
    cases l with
    | nil => simp at hl
    | cons b bs => simp [generateID, hexByte, List.flatMap_cons]
  have hdot : '.' ∉ (generateID rnd).data := fun h => by
    have := hmem _ h
    revert this; decide
  have hsl : '/' ∉ (generateID rnd).data := fun h => by
    have := hmem _ h
    revert this; decide
  refine ⟨?_, ?_, ?_, hsl⟩
  · intro e; exact hne (by rw [e])
  · intro e; exact hdot (by rw [e]; decide)
  · intro e; exact hdot (by rw [e]; decide)

/-- The model of `os.WriteFile` replaces at most the entry at its path. -/
theorem writeFile_eq_set (fs : FS) (rel : RelPath) (data : List UInt8) :
    ∃ x, WriteFile fs rel data = fs.set (fs.abs rel) x := by
  have hsame : fs = fs.set (fs.abs rel) (fs.ent (fs.abs rel)) := (FS.set_same fs _ _ rfl).symm
  unfold WriteFile OpenFile
  cases hc : pathCheck rel with
  | some e => exact ⟨fs.ent (fs.abs rel), hsame⟩
  | none =>
    simp only
    cases h1 : fs.lookup (fs.abs rel) with
    | ok e =>
      cases e with
      | file d => exact ⟨some (.file data), by simp⟩
      | dir => exact ⟨fs.ent (fs.abs rel), hsame⟩
    | error x =>
      cases x with
      | ENOENT =>
        simp only
        cases h2 : fs.lookup (fs.abs rel).dropLast with
        | ok e =>
          cases e with
          | file d => exact ⟨fs.ent (fs.abs rel), hsame⟩
          | dir => exact ⟨some (.file data), by simp⟩
        | error y => exact ⟨fs.ent (fs.abs rel), hsame⟩
      | ENOTDIR => exact ⟨fs.ent (fs.abs rel), hsame⟩
      | EISDIR => exact ⟨fs.ent (fs.abs rel), hsame⟩
      | EINVAL => exact ⟨fs.ent (fs.abs rel), hsame⟩
      | ENAMETOOLONG => exact ⟨fs.ent (fs.abs rel), hsame⟩
      | EEXIST => exact ⟨fs.ent (fs.abs rel), hsame⟩

theorem mkdirAllFrom_walk (ent : Path → Option Entry) (cs ds : List String) (pre : Path)
    (h : FS.walkFrom ent pre cs = .ok .dir) :
    mkdirAllFrom ent pre (cs ++ ds) = mkdirAllFrom ent (pre ++ cs) ds := by
  induction cs generalizing pre with
  | nil => simp
  | cons c cs ih =>
    simp only [FS.walkFrom] at h
    cases he : ent pre with
    | none => rw [he] at h; cases h
    | some e =>
      cases e with
      | file _ => rw [he] at h; cases h
      | dir =>
        rw [he] at h
        simp only at h
        by_cases hc : nameTooLong c = true
        · simp [hc] at h
        · simp only [hc, if_false] at h
          have h2 := ih (pre ++ [c]) h
          simp only [List.append_assoc, List.singleton_append] at h2
          simp only [List.cons_append, mkdirAllFrom, he, hc, if_false]
          exact h2

/-- A new directory is made in an existing directory. -/
theorem mkdirAll_new (fs : FS) (rel : RelPath) (p : Path) (c : String)
    (hck : pathCheck rel = none)
    (habs : fs.abs rel = p ++ [c]) (hp : fs.lookup p = .ok .dir)
    (hn : nameTooLong c = false)
    (hnew : fs.ent (p ++ [c]) = none) :
    MkdirAll fs rel = (fs.set (p ++ [c]) (some .dir), none) := by
  have hdir : fs.ent p = some .dir := FS.ent_of_lookup fs p _ hp
  have h1 : mkdirAllFrom fs.ent [] (fs.abs rel) =
      (fun q => if q = p ++ [c] then some .dir else fs.ent q, none) := by
    rw [habs, mkdirAllFrom_walk fs.ent p [c] [] hp]
    simp only [List.nil_append, mkdirAllFrom, hdir, hn, hnew, Bool.false_eq_true, if_false]
  unfold MkdirAll
  simp only [hck, h1]
  rfl

/-- `handlePost` with an unused identifier in a well-formed store whose
upload directory exists: the identifier is returned and the transfer is
there with nothing received. -/
theorem handlePost_fresh (fs : FS) (rnd : RandBytes) (req : PostReq)
    (hlen : req.uploadLength ≠ "")
    (hUp : osStat fs uploadDir = .ok .dir)
    (hNew : osStat fs (transferDir (generateID rnd)) = .error .ENOENT)
    (hWF : fs.WellFormed) :
    (handlePost fs rnd req).2 = { status := 200, uploadOffset := none, body := generateID rnd } ∧
      HasBlob (handlePost fs rnd req).1 (generateID rnd) [] := by
  have hid := generateID_plain rnd
  have hU : fs.lookup (fs.cwd ++ ["tmp"]) = .ok .dir := by
    rw [osStat_eq fs _ (pathCheck_of_ok fs _ _ hUp), uploadDir_eq] at hUp
    have : fs.abs ["tmp"] = fs.cwd ++ ["tmp"] := by
      have h1 : ("tmp" : String) ≠ ".." := by decide
      simp [FS.abs, h1]
    rw [this] at hUp; exact hUp
  have htd : tdAbs fs (generateID rnd) = (fs.cwd ++ ["tmp"]) ++ [generateID rnd] := by
    simp [tdAbs]
  have hckt : pathCheck (transferDir (generateID rnd)) = none := pathCheck_of_enoent fs _ hNew
  have hNew2 : fs.lookup (tdAbs fs (generateID rnd)) = .error .ENOENT := by
    rw [osStat_eq fs _ hckt, abs_transferDir fs hid] at hNew; exact hNew
  have hnm : nameTooLong (generateID rnd) = false := by
    have := name_ok_missing fs _ (tdAbs_ne_nil fs _) hNew2 (by rw [tdAbs_dropLast]; exact hU)
    rw [tdAbs_getLastD] at this
    exact this
  have hck : pathCheck (chunkFile (generateID rnd)) = none := pathCheck_ch_of_td hid hckt hnm
  have hTD : fs.ent (tdAbs fs (generateID rnd)) = none := by
    rw [htd, FS.lookup_snoc _ _ _ hnm, hU] at hNew2
    rw [htd]
    cases he : fs.ent (fs.cwd ++ ["tmp"] ++ [generateID rnd]) with
    | none => rfl
    | some e => rw [he] at hNew2; cases hNew2
  have hCH : fs.ent (chAbs fs (generateID rnd)) = none := by
    by_contra hne
    have := hWF (tdAbs fs (generateID rnd)) "data" (by rw [← chAbs_eq]; exact hne)
    rw [hTD] at this; cases this
  have hmk : MkdirAll fs (Join uploadDir (generateID rnd)) =
      (fs.set (tdAbs fs (generateID rnd)) (some .dir), none) := by
    have := mkdirAll_new fs (transferDir (generateID rnd)) (fs.cwd ++ ["tmp"]) (generateID rnd)
      hckt (by rw [abs_transferDir fs hid, htd]) hU hnm (by rw [← htd]; exact hTD)
    rw [← htd] at this
    exact this
  obtain ⟨x, hx⟩ := writeFile_eq_set (fs.set (tdAbs fs (generateID rnd)) (some .dir))
    (metadataFile (generateID rnd))
    (bytesOf ("Upload-Length: " ++ req.uploadLength ++ "\nUpload-Metadata: "
        ++ req.uploadMetadata ++ "\n"))
  have hmeta : (fs.set (tdAbs fs (generateID rnd)) (some .dir)).abs
      (metadataFile (generateID rnd)) = tdAbs fs (generateID rnd) ++ ["metadata.txt"] := by
    rw [metadataFile_plain hid, FS.abs_plain3 _ _ _ _ (by decide) hid.2.2.1 (by decide)]
    simp [tdAbs]
  rw [hmeta] at hx
  have hpost : handlePost fs rnd req =
      ((fs.set (tdAbs fs (generateID rnd)) (some .dir)).set
          (tdAbs fs (generateID rnd) ++ ["metadata.txt"]) x,
        { status := 200, uploadOffset := none, body := generateID rnd }) := by
    unfold handlePost
    simp only [hlen, if_false, hmk]
    rw [← hx]
    rfl
  rw [hpost]
  refine ⟨rfl, ?_⟩
  apply hasBlob_of _ hid [] hck
  simp only [tdAbs_set, chAbs_set]
  have hlonger : ∀ (q p : Path), p.length < q.length → ¬ q <+: p := by
    intro q p hl hpre
    have := hpre.length_le
    omega
  have hdir : ((fs.set (tdAbs fs (generateID rnd)) (some .dir)).set
      (tdAbs fs (generateID rnd) ++ ["metadata.txt"]) x).lookup (tdAbs fs (generateID rnd)) =
      .ok .dir := by
    rw [FS.lookup_set _ _ _ _ (hlonger _ _ (by simp)), htd]
    apply FS.lookup_set_self
    · exact hnm
    · exact hU
  refine ⟨hdir, Or.inr ⟨trivial, ?_⟩⟩
  have hsn := lookup_chunk ((fs.set (tdAbs fs (generateID rnd)) (some .dir)).set
      (tdAbs fs (generateID rnd) ++ ["metadata.txt"]) x) (generateID rnd)
  simp only [tdAbs_set, chAbs_set] at hsn
  rw [hdir, FS.set_ent_ne _ _ _ _ (by rw [chAbs_eq]; simp),
    FS.set_ent_ne _ _ _ _ (chAbs_ne_tdAbs _ _ _), hCH] at hsn
  exact hsn

/-! ## Chunks sent in order -/

theorem payload_length (reqs : List PatchReq) : (payload reqs).length = sent reqs := by
  induction reqs with
  | nil => rfl
  | cons r rs ih =>
    simp only [payload, sent, List.flatMap_cons, List.length_append, List.map_cons,
      List.sum_cons] at ih ⊢
    rw [ih]

theorem finishPatch_resp (fsW : FS) (req : PatchReq) (s : String) (o t : Int)
    (hbf : req.bodyFails = false) :
    (finishPatch fsW req s o t).resp =
      { status := 204, uploadOffset := some (wrapInt64 (o + req.body.length)), body := "" } := by
  unfold finishPatch
  simp only [hbf, Bool.false_eq_true, if_false]
  split
  · split <;> rfl
  · rfl

/-- After the completion check the blob is at the final path when the
rename succeeded, and in place otherwise. -/
theorem finish_blob_location (fsW : FS) (req : PatchReq) {s : String} (h : PlainName s)
    (w : List UInt8) (hb : HasBlob fsW s w) (hw : fsW.ent (chAbs fsW s) = some (.file w))
    (o t : Int) :
    osStat (finishPatch fsW req s o t).fs
        (if (finishPatch fsW req s o t).saved then finalPath req.uploadName else chunkFile s) =
      .ok (.file w) := by
  have hdW : fsW.lookup (tdAbs fsW s) = .ok .dir := (hasBlob_dir _ h _ hb)
  have hcW : fsW.lookup (chAbs fsW s) = .ok (.file w) := lookup_chunk_of_ent fsW s _ hdW hw
  have hplace : osStat fsW (chunkFile s) = .ok (.file w) := by
    rw [osStat_eq fsW _ (hasBlob_check fsW w hb), abs_chunkFile fsW h]; exact hcW
  by_cases hf : req.bodyFails = true
  · have hval : finishPatch fsW req s o t =
        ⟨fsW, httpError "Failed to write chunk" 500, false⟩ := by
      simp [finishPatch, hf]
    rw [hval]; exact hplace
  have hf' : req.bodyFails = false := by simpa using hf
  by_cases hc : wrapInt64 (o + req.body.length) ≥ t
  · cases hr : Rename fsW (chunkFile s) (finalPath req.uploadName) with
    | error x =>
      have hval : finishPatch fsW req s o t =
          ⟨fsW, { status := 204, uploadOffset := some (wrapInt64 (o + req.body.length)),
                  body := "" }, false⟩ := by
        simp [finishPatch, hf', hc, hr]
      rw [hval]; exact hplace
    | ok fs3 =>
      have hval : finishPatch fsW req s o t =
          ⟨fs3, { status := 204, uploadOffset := some (wrapInt64 (o + req.body.length)),
                  body := "" }, true⟩ := by
        simp [finishPatch, hf', hc, hr]
      rw [hval]
      simp only [if_true]
      obtain ⟨d, hck, hs, hcase⟩ := rename_inv fsW _ _ fs3 hr
      rw [abs_chunkFile fsW h] at hs hcase
      have hdw : d = w := by
        rw [hcW] at hs; cases hs; rfl
      subst hdw
      rcases hcase with ⟨h3, h4⟩ | ⟨hne, hq, hqne, ⟨hpar, hnm⟩, hfs⟩
      · rw [h3, osStat_eq _ _ hck.2, ← h4]; exact hcW
      · have hnpre : ¬ chAbs fsW s <+: (fsW.abs (finalPath req.uploadName)).dropLast := by
          intro hp
          have hl := lookup_dir_above _ _ _ hpar hp
          rw [hl] at hcW; cases hcW
        have hnq : ¬ fsW.abs (finalPath req.uploadName) <+:
            (fsW.abs (finalPath req.uploadName)).dropLast := by
          intro hp
          have := hp.length_le
          have hpos : 0 < (fsW.abs (finalPath req.uploadName)).length :=
            List.length_pos.mpr hqne
          simp only [List.length_dropLast] at this
          omega
        rw [hfs, osStat_eq _ _ hck.2]
        simp only [FS.set_abs]
        apply lookup_of_parent _ _ _ hqne
        · rw [FS.lookup_set _ _ _ _ hnq, FS.lookup_set _ _ _ _ hnpre]; exact hpar
        · exact hnm
        · exact FS.set_ent_self _ _ _
  · have hval : finishPatch fsW req s o t =
        ⟨fsW, { status := 204, uploadOffset := some (wrapInt64 (o + req.body.length)),
                body := "" }, false⟩ := by
      simp [finishPatch, hf', hc]
    rw [hval]; exact hplace

theorem dropLast_cons_of_ne_nil (r : PatchReq) (rs : List PatchReq) (h : rs ≠ []) :
    (r :: rs).dropLast = r :: rs.dropLast := by
  cases rs with
  | nil => exact absurd rfl h
  | cons a as => rfl

/-- The run of in-order chunks from a transfer that has received `d`. -/
theorem in_order_aux (transferID : String) (hid : PlainName transferID) (L : Int)
    (reqs : List PatchReq) :
    ∀ (fs : FS) (d : List UInt8), HasBlob fs transferID d →
      Chained fs transferID (some (d.length : Int)) reqs →
      (∀ r ∈ reqs, ParseInt r.uploadLength = some L) →
      (∀ r ∈ reqs, r.bodyFails = false) →
      ((d.length : Int) + sent reqs.dropLast < L ∨ reqs = []) →
      (d.length : Int) + sent reqs < 2 ^ 63 →
      AnswersOffsetPlusBytes fs transferID reqs ∧
        (((d.length : Int) + sent reqs < L ∨ reqs = []) →
          HasBlob (patchAll fs transferID reqs) transferID (d ++ payload reqs)) ∧
        (L ≤ (d.length : Int) + sent reqs → ∀ pre r, reqs = pre ++ [r] →
          osStat (handlePatch (patchAll fs transferID pre) r transferID).fs
              (if (handlePatch (patchAll fs transferID pre) r transferID).saved
                then finalPath r.uploadName else chunkFile transferID) =
            .ok (.file (d ++ payload reqs))) := by
  induction reqs with
  | nil =>
    intro fs d hb _ _ _ _ _
    refine ⟨trivial, fun _ => by simpa [payload, patchAll] using hb, ?_⟩
    intro _ pre r e
    simp at e
  | cons r rs ih =>
    intro fs d hb hch hlen hbody hopen h64
    obtain ⟨hoff, hch2⟩ := hch
    have hL := hlen r (List.mem_cons_self _ _)
    have hbf := hbody r (List.mem_cons_self _ _)
    have hd : fs.lookup (tdAbs fs transferID) = .ok .dir := (hasBlob_dir fs hid d hb)
    have hsent : sent (r :: rs) = r.body.length + sent rs := by simp [sent]
    have hpay : payload (r :: rs) = r.body ++ payload rs := by simp [payload]
    have hbW := set_chunk_hasBlob fs hid (hasBlob_check fs d hb) hd (written d d.length r.body)
    rw [written_append] at hbW
    by_cases hlt : (d.length : Int) + r.body.length < L
    · -- the call stays below the total: the run goes on
      have s1 := patch_below fs r hid d hb d.length L hoff hL hbf hlt
      rw [written_append] at s1
      have hch3 : Chained (fs.set (chAbs fs transferID) (some (.file (d ++ r.body))))
          transferID (some (((d ++ r.body).length : Nat) : Int)) rs := by
        rw [s1] at hch2
        simpa using hch2
      have hopen3 : (((d ++ r.body).length : Nat) : Int) + sent rs.dropLast < L ∨ rs = [] := by
        by_cases hrs : rs = []
        · exact Or.inr hrs
        · left
          rcases hopen with ho | ho
          · have hs2 : sent (r :: rs.dropLast) = r.body.length + sent rs.dropLast := by
              simp [sent]
            rw [dropLast_cons_of_ne_nil r rs hrs, hs2] at ho
            simp only [List.length_append]
            push_cast at ho ⊢
            omega
          · cases ho
      have h643 : (((d ++ r.body).length : Nat) : Int) + sent rs < 2 ^ 63 := by
        rw [hsent] at h64
        simp only [List.length_append]
        push_cast at h64 ⊢
        omega
      obtain ⟨iA, iB, iC⟩ := ih _ (d ++ r.body) hbW hch3
        (fun x hx => hlen x (List.mem_cons_of_mem _ hx))
        (fun x hx => hbody x (List.mem_cons_of_mem _ hx)) hopen3 h643
      refine ⟨⟨⟨_, hoff, by rw [s1]⟩, by rw [s1]; exact iA⟩, ?_, ?_⟩
      · intro hB
        have hB2 : (((d ++ r.body).length : Nat) : Int) + sent rs < L ∨ rs = [] := by
          left
          rcases hB with hB | hB
          · rw [hsent] at hB
            simp only [List.length_append]
            push_cast at hB ⊢
            omega
          · cases hB
        have := iB hB2
        simp only [patchAll, s1, hpay]
        simpa [List.append_assoc] using this
      · intro hC pre r' e
        cases pre with
        | nil =>
          simp only [List.nil_append, List.cons.injEq] at e
          obtain ⟨rfl, rfl⟩ := e
          simp [sent] at hC
          omega
        | cons a pre' =>
          simp only [List.cons_append, List.cons.injEq] at e
          obtain ⟨rfl, e2⟩ := e
          have hC2 : L ≤ (((d ++ r.body).length : Nat) : Int) + sent rs := by
            rw [hsent] at hC
            simp only [List.length_append]
            push_cast at hC ⊢
            omega
          have := iC hC2 pre' r' e2
          simp only [patchAll, s1, hpay]
          simpa [List.append_assoc] using this
    · -- the call reaches the total: it is the last one
      have hge : L ≤ (d.length : Int) + r.body.length := not_lt.mp hlt
      have hrs : rs = [] := by
        by_contra hne
        rcases hopen with ho | ho
        · rw [dropLast_cons_of_ne_nil r rs hne] at ho
          have : sent (r :: rs.dropLast) = r.body.length + sent rs.dropLast := by simp [sent]
          rw [this] at ho
          push_cast at ho
          omega
        · cases ho
      subst hrs
      have h642 : (d.length : Int) + r.body.length < 2 ^ 63 := by
        simpa [sent] using h64
      have hw := handlePatch_write fs r hid d hb (d.length : Int) L hoff
        (Int.ofNat_nonneg _) hL
      simp only [Int.toNat_ofNat, written_append] at hw
      have hresp := finishPatch_resp (fs.set (chAbs fs transferID) (some (.file (d ++ r.body))))
        r transferID (d.length : Int) L hbf
      rw [wrapInt64_of_range _ (by positivity) h642] at hresp
      refine ⟨⟨⟨_, hoff, by rw [hw, hresp]⟩, trivial⟩, ?_, ?_⟩
      · intro hB
        rcases hB with hB | hB
        · simp [sent] at hB
          omega
        · cases hB
      · intro _ pre r' e
        cases pre with
        | nil =>
          simp only [List.nil_append, List.cons.injEq, and_true] at e
          subst e
          have hp1 : payload [r] = r.body := by simp [payload]
          simp only [patchAll, hw, hp1]
          exact finish_blob_location _ r hid _ hbW (FS.set_ent_self _ _ _) _ _
        | cons a pre' =>
          simp only [List.cons_append, List.cons.injEq] at e
          have := e.2
          simp at this

/-! ## The claims on a run of chunks sent in order -/

theorem store0_wellFormed : store0.WellFormed := by
  intro p c h
  by_cases hp : p ++ [c] = ["tmp"]
  · have : p = [] := by
      cases p with
      | nil => rfl
      | cons a as =>
        have := congrArg List.length hp
        simp at this
    subst this
    rfl
  · exfalso
    apply h
    simp [store0, hp]

theorem sent_dropLast_le (reqs : List PatchReq) : sent reqs.dropLast ≤ sent reqs := by
  induction reqs with
  | nil => simp [sent]
  | cons r rs ih =>
    cases rs with
    | nil => simp [sent]
    | cons a as =>
      have h1 : (r :: a :: as).dropLast = r :: (a :: as).dropLast := rfl
      have h2 : sent (r :: (a :: as).dropLast) = r.body.length + sent (a :: as).dropLast := by
        simp [sent]
      have h3 : sent (r :: a :: as) = r.body.length + sent (a :: as) := by
        simp [sent]
      rw [h1, h2, h3]
      omega

/-- Every call of a chained run on an existing transfer answers with its
offset plus its body bytes, also after the transfer was completed. -/
theorem answers_aux (transferID : String) (hid : PlainName transferID) (L : Int)
    (reqs : List PatchReq) :
    ∀ (fs : FS) (off : Nat), (∃ d, HasBlob fs transferID d) →
      Chained fs transferID (some (off : Int)) reqs →
      (∀ r ∈ reqs, ParseInt r.uploadLength = some L) →
      (∀ r ∈ reqs, r.bodyFails = false) →
      (off : Int) + sent reqs < 2 ^ 63 →
      AnswersOffsetPlusBytes fs transferID reqs := by
  induction reqs with
  | nil => intro _ _ _ _ _ _ _; trivial
  | cons r rs ih =>
    intro fs off hex hch hlen hbody h64
    obtain ⟨d, hb⟩ := hex
    obtain ⟨hoff, hch2⟩ := hch
    have hL := hlen r (List.mem_cons_self _ _)
    have hbf := hbody r (List.mem_cons_self _ _)
    have hd : fs.lookup (tdAbs fs transferID) = .ok .dir := (hasBlob_dir fs hid d hb)
    have hsent : sent (r :: rs) = r.body.length + sent rs := by simp [sent]
    have h642 : (off : Int) + r.body.length < 2 ^ 63 := by
      rw [hsent] at h64
      push_cast at h64
      omega
    have hw := handlePatch_write fs r hid d hb (off : Int) L hoff (Int.ofNat_nonneg _) hL
    have hresp := finishPatch_resp
      (fs.set (chAbs fs transferID) (some (.file (written d (off : Int).toNat r.body))))
      r transferID (off : Int) L hbf
    rw [wrapInt64_of_range _ (by positivity) h642] at hresp
    have hbW := set_chunk_hasBlob fs hid (hasBlob_check fs d hb) hd
      (written d (off : Int).toNat r.body)
    have hnext : ∃ d', HasBlob (handlePatch fs r transferID).fs transferID d' := by
      rw [hw]
      rcases finishPatch_cases _ r hid _ hbW (FS.set_ent_self _ _ _) (off : Int) L with
        hsame | ⟨_, hne, hq, _, _, hfs⟩
      · rw [hsame]; exact ⟨_, hbW⟩
      · rw [hfs]
        exact ⟨[], moved_hasBlob _ hid _ _ (hasBlob_check fs d hb) (hasBlob_dir _ hid _ hbW)
          hq hne⟩
    have hch3 : Chained (handlePatch fs r transferID).fs transferID
        (some (((off + r.body.length : Nat)) : Int)) rs := by
      have e : (handlePatch fs r transferID).resp.uploadOffset =
          some (((off + r.body.length : Nat)) : Int) := by
        rw [hw, hresp]; simp
      rw [← e]; exact hch2
    refine ⟨⟨_, hoff, by rw [hw, hresp]⟩, ?_⟩
    apply ih _ (off + r.body.length) hnext hch3
      (fun x hx => hlen x (List.mem_cons_of_mem _ hx))
      (fun x hx => hbody x (List.mem_cons_of_mem _ hx))
    rw [hsent] at h64
    push_cast at h64 ⊢
    omega

/-- C1: a transfer freshly created by `handlePost` (valid declared length
`L`, unused identifier), then any run of `handlePatch` calls declaring `L`,
the first at offset 0 and each later one at the offset the call before it
returned: every call answers 204 with its offset plus the number of its
body bytes; while the sum of the bytes sent is below `L` (and for the empty
run) `handleHead` reports that sum; and with the call at which the sum
reaches `L` the blob, at the final path when the rename succeeded and in
place otherwise, holds exactly the bytes sent, so its size is the sum,
which is `L` when the chunk ends at `L`. -/
theorem in_order_run (fs0 : FS) (rnd : RandBytes) (preq : PostReq) (L : Int)
    (reqs : List PatchReq)
    (hL : ParseInt preq.uploadLength = some L)
    (hUp : osStat fs0 uploadDir = .ok .dir)
    (hNew : osStat fs0 (transferDir (generateID rnd)) = .error .ENOENT)
    (hWF : fs0.WellFormed)
    (hch : Chained (handlePost fs0 rnd preq).1 (generateID rnd) (some 0) reqs)
    (hlen : ∀ r ∈ reqs, ParseInt r.uploadLength = some L)
    (hbody : ∀ r ∈ reqs, r.bodyFails = false)
    (h64 : (sent reqs : Int) < 2 ^ 63) :
    (handlePost fs0 rnd preq).2 =
        { status := 200, uploadOffset := none, body := generateID rnd } ∧
      AnswersOffsetPlusBytes (handlePost fs0 rnd preq).1 (generateID rnd) reqs ∧
      (((sent reqs : Int) < L ∨ reqs = []) →
        handleHead (patchAll (handlePost fs0 rnd preq).1 (generateID rnd) reqs) (generateID rnd) =
          { status := 200, uploadOffset := some (sent reqs : Int), body := "" }) ∧
      ((sent reqs.dropLast : Int) < L → L ≤ (sent reqs : Int) → ∀ pre r, reqs = pre ++ [r] →
        osStat (handlePatch (patchAll (handlePost fs0 rnd preq).1 (generateID rnd) pre) r
              (generateID rnd)).fs
            (if (handlePatch (patchAll (handlePost fs0 rnd preq).1 (generateID rnd) pre) r
                (generateID rnd)).saved
              then finalPath r.uploadName else chunkFile (generateID rnd)) =
          .ok (.file (payload reqs)) ∧ ((payload reqs).length : Int) = sent reqs ∧
          ((sent reqs : Int) = L → ((payload reqs).length : Int) = L)) := by
  have hid := generateID_plain rnd
  obtain ⟨hresp, hb⟩ := handlePost_fresh fs0 rnd preq (parseInt_ne_empty hL) hUp hNew hWF
  have hA := answers_aux (generateID rnd) hid L reqs _ 0 ⟨[], hb⟩ (by simpa using hch) hlen hbody
    (by simpa using h64)
  refine ⟨hresp, hA, ?_, ?_⟩
  · intro h
    have hopen : (sent reqs.dropLast : Int) < L ∨ reqs = [] := by
      rcases h with h | h
      · left
        have := sent_dropLast_le reqs
        have h2 : (sent reqs.dropLast : Int) ≤ (sent reqs : Int) := by exact_mod_cast this
        omega
      · exact Or.inr h
    obtain ⟨_, hB, _⟩ := in_order_aux (generateID rnd) hid L reqs _ [] hb
      (by simpa using hch) hlen hbody (by simpa using hopen) (by simpa using h64)
    have hb2 := hB (by simpa using h)
    rw [head_of_hasBlob _ _ _ hb2]
    simp [payload_length]
  · intro hopen h pre r e
    obtain ⟨_, _, hC⟩ := in_order_aux (generateID rnd) hid L reqs _ [] hb
      (by simpa using hch) hlen hbody (by simpa using (Or.inl hopen : _ ∨ reqs = []))
      (by simpa using h64)
    have := hC (by simpa using h) pre r e
    refine ⟨by simpa using this, by rw [payload_length], fun hh => by rw [payload_length]; exact hh⟩

/-- C1 on the ten-byte upload of `HELLO` then `WORLD`. -/
theorem in_order_run_witness :
    AnswersOffsetPlusBytes created idA [reqHello, reqWorld] ∧
      handleHead (patchAll created idA [reqHello]) idA =
        { status := 200, uploadOffset := some 5, body := "" } ∧
      osStat afterWorld (finalPath "") = .ok (.file (hello ++ world)) :=
  have h1 := in_order_run store0 rnd0 ⟨"10", ""⟩ 10 [reqHello, reqWorld] (by decide)
    (by decide) (by decide) store0_wellFormed ⟨by decide, by decide, trivial⟩ (by decide)
    (by decide) (by decide)
  have h2 := in_order_run store0 rnd0 ⟨"10", ""⟩ 10 [reqHello] (by decide)
    (by decide) (by decide) store0_wellFormed ⟨by decide, trivial⟩ (by decide)
    (by decide) (by decide)
  ⟨h1.2.1, h2.2.2.1 (by decide), (h1.2.2.2 (by decide) (by decide) [reqHello] reqWorld rfl).1⟩

/-! ## The claims at concrete inputs -/

set_option maxRecDepth 100000 in
/-- A final name of 256 bytes: `os.Stat` answers `ENAMETOOLONG` for the
final path, the call that reaches the total answers 204 with the new
offset, the rename fails, and the blob stays in place. -/
theorem long_name_stays :
    longName.utf8ByteSize = 256 ∧ PlainName (finalName longName) ∧
      osStat afterHello (finalPath longName) = .error .ENAMETOOLONG ∧
      (handlePatch afterHello ⟨"5", "10", longName, world, false⟩ idA).resp =
        { status := 204, uploadOffset := some 10, body := "" } ∧
      (handlePatch afterHello ⟨"5", "10", longName, world, false⟩ idA).saved = false ∧
      HasBlob (handlePatch afterHello ⟨"5", "10", longName, world, false⟩ idA).fs idA
        (hello ++ world) := by
  decide

set_option maxRecDepth 100000 in
/-- An identifier of 256 bytes: `os.Stat` answers `ENAMETOOLONG`, which is
not "does not exist", so `handleHead` answers 200 with offset 0 and
`handlePatch` fails to open the blob. -/
theorem long_id_found :
    osStat afterHello (transferDir longName) = .error .ENAMETOOLONG ∧
      handleHead afterHello longName = { status := 200, uploadOffset := some 0, body := "" } ∧
      (handlePatch afterHello reqHello longName).resp = httpError "Failed to save chunk" 500 := by
  decide

/-- C2, counterexample: on the fresh ten-byte transfer a single chunk of
eleven bytes at offset 0 reaches the declared length 10; the call answers
204 with offset 11 and the artifact `uploaded_file` holds eleven bytes, not
ten. -/
theorem completing_call_counterexample :
    HasBlob created idA [] ∧ ParseInt reqTooLong.uploadLength = some 10 ∧
      (handlePatch created reqTooLong idA).resp =
        { status := 204, uploadOffset := some 11, body := "" } ∧
      osStat (handlePatch created reqTooLong idA).fs (finalPath "") =
        .ok (.file (hello ++ world ++ [33])) ∧
      ((hello ++ world ++ [33]).length : Int) ≠ 10 := by
  decide

/-- C2 (amended) on the call that sends `WORLD` after `HELLO`. -/
theorem completing_call_promotes_witness :
    (handlePatch afterHello reqWorld idA).saved = true ∧
      (handlePatch afterHello reqWorld idA).resp =
        { status := 204, uploadOffset := some (((5 : Nat) : Int) + reqWorld.body.length),
          body := "" } ∧
      osStat (handlePatch afterHello reqWorld idA).fs (finalPath reqWorld.uploadName) =
        .ok (.file (written hello 5 reqWorld.body)) ∧
      (written hello 5 reqWorld.body).length = max hello.length (5 + reqWorld.body.length) ∧
      (10 : Int) ≤ ((written hello 5 reqWorld.body).length : Int) :=
  completing_call_promotes afterHello reqWorld idA hello 5 10 (by decide) (by decide)
    (by decide) (by decide) (by decide) (by decide) (by decide) (by decide) (by decide)
    (Or.inl (by decide))

/-- C3 on a call that overwrites two bytes of `HELLO` in place. -/
theorem patch_writes_in_place_witness :
    ∃ d', HasBlob (handlePatch afterHello ⟨"2", "10", "", [88, 89], false⟩ idA).fs idA d' ∧
      d'.length = max hello.length (2 + 2) ∧
      (∀ i, i < 2 → d'[2 + i]? = [(88 : UInt8), 89][i]?) ∧
      (∀ i, i < hello.length → (i < 2 ∨ 2 + 2 ≤ i) → d'[i]? = hello[i]?) :=
  patch_writes_in_place afterHello ⟨"2", "10", "", [88, 89], false⟩ idA hello 2 10 (by decide)
    (by decide) (by decide) (by decide) (by decide) (Or.inr (by decide))

/-- C4, counterexample: on the fresh ten-byte transfer, with `WORLD` at
offset 5 taking effect before `HELLO` at offset 0, the finalized artifact
holds five zero bytes followed by `WORLD`, not `HELLOWORLD`. -/
theorem two_chunk_counterexample :
    HasBlob created idA [] ∧ hello.length = 5 ∧ world.length = 5 ∧
      osStat (patchAll created idA [reqWorld, reqHello]) (finalPath "") =
        .ok (.file ([0, 0, 0, 0, 0] ++ world)) ∧
      [0, 0, 0, 0, 0] ++ world ≠ hello ++ world := by
  decide

/-- C4 (amended) on `HELLO` and `WORLD`. -/
theorem two_chunk_schedules_witness :
    osStat (patchAll created idA [⟨"0", "10", "", hello, false⟩, ⟨"5", "10", "", world, false⟩])
        (finalPath "") = .ok (.file (hello ++ world)) ∧
      osStat (patchAll created idA [⟨"5", "10", "", world, false⟩, ⟨"0", "10", "", hello, false⟩])
        (finalPath "") = .ok (.file (List.replicate 5 0 ++ world)) ∧
      HasBlob (patchAll created idA [⟨"5", "10", "", world, false⟩, ⟨"0", "10", "", hello, false⟩])
        idA hello :=
  two_chunk_schedules created idA "" "" hello world (by decide) (by decide) (by decide)
    (Or.inl (by decide)) (by decide) (by decide)

/-- C5 on the call that completes the ten-byte upload. -/
theorem reissue_keeps_head_witness :
    (handlePatch afterHello reqWorld idA).resp.status = 204 ∧
      handleHead (handlePatch (handlePatch afterHello reqWorld idA).fs reqWorld idA).fs idA =
        handleHead (handlePatch afterHello reqWorld idA).fs idA :=
  ⟨by decide, reissue_keeps_head afterHello reqWorld idA (by decide) (by decide)⟩

/-- C6, counterexample: after `HELLO` the received length `handleHead`
reports is 5; after `WORLD`, the call that completes the transfer, it
is 0. -/
theorem received_counterexample :
    handleHead afterHello idA = { status := 200, uploadOffset := some 5, body := "" } ∧
      (handlePatch afterHello reqWorld idA).resp =
        { status := 204, uploadOffset := some 10, body := "" } ∧
      handleHead (handlePatch afterHello reqWorld idA).fs idA =
        { status := 200, uploadOffset := some 0, body := "" } := by
  decide

/-- C6 (amended) on the call that sends `HELLO`. -/
theorem received_monotone_witness :
    NoPromotion created idA [reqHello] ∧
      (handleHead (patchAll created idA [reqHello]) idA).status =
        (handleHead created idA).status ∧
      received created idA ≤ received (patchAll created idA [reqHello]) idA :=
  ⟨⟨by decide, trivial⟩,
    received_monotone created idA [reqHello] (by decide) ⟨by decide, trivial⟩⟩

/-- C7, counterexample: the call that completes the transfer renames the
blob to `uploaded_file`, which then holds `HELLOWORLD`; the same call
delivered once more renames a new blob onto it, and `uploaded_file` then
holds five zero bytes followed by `WORLD`. -/
theorem promotion_counterexample :
    (handlePatch afterHello reqWorld idA).saved = true ∧
      osStat afterWorld (finalPath "") = .ok (.file (hello ++ world)) ∧
      (handlePatch afterWorld reqWorld idA).saved = true ∧
      osStat (handlePatch afterWorld reqWorld idA).fs (finalPath "") =
        .ok (.file ([0, 0, 0, 0, 0] ++ world)) ∧
      [0, 0, 0, 0, 0] ++ world ≠ hello ++ world := by
  decide

/-- C7 (amended) on the last chunk delivered once more after completion. -/
theorem promotion_each_time_witness :
    (((5 : Nat) : Int) + reqWorld.body.length < 10 ∧
        (handlePatch afterWorld reqWorld idA).saved = false ∧
        osStat (handlePatch afterWorld reqWorld idA).fs (finalPath reqWorld.uploadName) =
          osStat afterWorld (finalPath reqWorld.uploadName)) ∨
      ((10 : Int) ≤ ((5 : Nat) : Int) + reqWorld.body.length ∧
        (handlePatch afterWorld reqWorld idA).saved = true ∧
        osStat (handlePatch afterWorld reqWorld idA).fs (finalPath reqWorld.uploadName) =
          .ok (.file (written [] 5 reqWorld.body))) :=
  promotion_each_time afterWorld reqWorld idA [] 5 10 (by decide) (by decide) (by decide)
    (by decide) (by decide) (by decide) (Or.inr (by decide)) (by decide)
    (Or.inr ⟨hello ++ world, by decide⟩)

/-- C8, counterexample: the only identifier `handlePost` returned is `idA`;
`uploaded_file`, the name of the finalized artifact, was never returned, yet
`handleHead` answers it with 200 and offset 0, and `handlePatch` with 500. -/
theorem not_found_counterexample :
    (handlePost store0 rnd0 ⟨"10", ""⟩).2.body = idA ∧ "uploaded_file" ≠ idA ∧
      "uploaded_file" ≠ "" ∧
      osStat afterWorld (finalPath "") = .ok (.file (hello ++ world)) ∧
      handleHead afterWorld "uploaded_file" =
        { status := 200, uploadOffset := some 0, body := "" } ∧
      (handlePatch afterWorld reqHello "uploaded_file").resp =
        httpError "Failed to save chunk" 500 := by
  decide

/-- C8 (amended) on an identifier with nothing at its path. -/
theorem not_found_when_absent_witness :
    osStat afterWorld (transferDir "0123") = .error .ENOENT ∧
      handleHead afterWorld "0123" = httpError "Transfer not found" 404 ∧
      (handleHead afterWorld "0123").uploadOffset = none ∧
      (handlePatch afterWorld reqHello "0123").resp = httpError "Transfer not found" 404 ∧
      (handlePatch afterWorld reqHello "0123").resp.uploadOffset = none ∧
      (handlePatch afterWorld reqHello "0123").fs = afterWorld :=
  ⟨by decide, not_found_when_absent afterWorld reqHello "0123" (by decide)⟩

/-- C9, counterexample: `abc` and `-1` are no non-negative decimal integers,
yet `handlePost` answers both with 200 and an identifier, and the transfer
directory and the metadata record are there afterwards. -/
theorem post_length_counterexample :
    ParseInt "abc" = none ∧
      (handlePost store0 rnd0 ⟨"abc", ""⟩).2 =
        { status := 200, uploadOffset := none, body := idA } ∧
      osStat (handlePost store0 rnd0 ⟨"abc", ""⟩).1 (transferDir idA) = .ok .dir ∧
      osStat (handlePost store0 rnd0 ⟨"abc", ""⟩).1 (metadataFile idA) =
        .ok (.file (bytesOf "Upload-Length: abc\nUpload-Metadata: \n")) ∧
      (handlePost store0 rnd0 ⟨"-1", ""⟩).2 =
        { status := 200, uploadOffset := none, body := idA } ∧
      osStat (handlePost store0 rnd0 ⟨"-1", ""⟩).1 (transferDir idA) = .ok .dir := by
  decide

/-- C9 (amended) on a request without `Upload-Length`. -/
theorem post_requires_length_witness :
    handlePost store0 rnd0 ⟨"", "name"⟩ =
        (store0, httpError "Upload-Length header required" 400) ∧
      (handlePost store0 rnd0 ⟨"", "name"⟩).2.status = 400 :=
  post_requires_length store0 rnd0 ⟨"", "name"⟩ rfl

/-- C10, counterexample: with two transfers `idA` and `idB`, `idB` holding
`HELLO`, a complete upload to `idA` whose `Upload-Name` is the blob of
`idB` is promoted into the directory of `idB` and replaces the blob of
`idB`. -/
theorem other_transfer_counterexample :
    idA ≠ idB ∧ HasBlob twoTransfers idA [] ∧ HasBlob twoTransfers idB hello ∧
      (handlePatch twoTransfers reqIntoOther idA).saved = true ∧
      finalPath reqIntoOther.uploadName = chunkFile idB ∧
      osStat (handlePatch twoTransfers reqIntoOther idA).fs (chunkFile idB) =
        .ok (.file (world ++ world)) ∧
      world ++ world ≠ hello := by
  decide

/-- C10 (amended) on two transfers and a call with the default name. -/
theorem other_transfer_untouched_witness :
    osStat (handlePatch twoTransfers reqWorld idA).fs (chunkFile idB) =
        osStat twoTransfers (chunkFile idB) ∧
      osStat (handlePatch twoTransfers reqWorld idA).fs (metadataFile idB) =
        osStat twoTransfers (metadataFile idB) ∧
      (∀ X, PlainName X → ¬ Inside twoTransfers (finalPath reqWorld.uploadName) (transferDir X)) :=
  other_transfer_untouched twoTransfers reqWorld idA idB (by decide) (by decide) (by decide)
    (by decide) (by decide)

end ChunkUpload
